import Mathlib

/-!
Verification of the dashboard reconciliation tool (cmd/sqlitedb/sqlitedb.go).

The Go program is embedded shallowly: every database or filesystem effect is
recorded as an `Event` in a trace, database tables are explicit lists, and the
fallible phases return `Except`.  The JSON codec, slug generator and generic
file helpers live in the repository library outside the provided sources, so
they are modelled from the spec (each such definition says so in its doc
comment).  Everything else is translated directly from sqlitedb.go.
-/

namespace Sqlitedb

/-- Claim-free data model: the `dashboard` struct of sqlitedb.go, holding the
main dashboard keys title, uid and tags parsed from JSON. -/
structure dashboard where
  title : String
  uid : String
  tags : List String
deriving DecidableEq, Inhabited, Repr

/-- Modelled from the spec (section 4.2): the semantic content of a JSON
dashboard document, i.e. the fields the codec exposes plus the remaining
fields preserved verbatim.  The Go code keeps documents as byte strings; the
model keeps their parsed content. -/
structure JsonDoc where
  title : String
  uid : String
  tags : List String
  rest : String
deriving DecidableEq, Inhabited, Repr

/-- Modelled from the spec (section 4.2): a byte string holding a JSON
document.  `canonical` records whether the bytes are already in the canonical
pretty-printed form; two byte strings are equal exactly when they hold the
same document in the same form.  This stands in for the raw `[]byte` values
of the Go code, whose codec (lib.PrettyPrintJSON) is not under src/. -/
structure JBytes where
  doc : JsonDoc
  canonical : Bool
deriving DecidableEq, Inhabited, Repr

/-- Modelled from the spec (section 4.2): lib.PrettyPrintJSON, the canonical
pretty printer.  It keeps the document content and puts the bytes into the
canonical form; it is idempotent and two semantically identical documents get
byte-identical canonical forms. -/
def PrettyPrintJSON (b : JBytes) : JBytes :=
  { b with canonical := true }

/-- Modelled from the spec (section 4.2): json.Unmarshal into the `dashboard`
struct, reading the title, uid and tags fields of a well-formed document. -/
def Unmarshal (b : JBytes) : dashboard :=
  ⟨b.doc.title, b.doc.uid, b.doc.tags⟩

/-- A row of the `dashboard` table: id, title, slug and the data column. -/
structure DBRow where
  id : Nat
  title : String
  slug : String
  data : JBytes
deriving DecidableEq, Inhabited, Repr

/-- The `dashboard_tag` table: one (dashboard_id, term) row per association. -/
abbrev TagTable := List (Nat × String)

/-- The `dashboard` table. -/
abbrev DashTable := List DBRow

/-- The reasons for which the Go code calls lib.Fatalf / lib.FatalOnError. -/
inductive FatalKind where
  | inconsistent (dbTitle jsonTitle : String)
  | uidNotFound (fn uid : String)
  | dupUid (fn uid : String)
  | titleNotFound (title : String)
  | badArity
  | readErr (fn : String)
deriving DecidableEq, Repr

/-- Observable effects of a run: SQL writes, sidecar and backup file writes,
fatal termination, and the uid-mismatch skip diagnostic of title matching. -/
inductive Event where
  | execUpdate (id : Nat) (title slug : String) (data : JBytes)
  | tagInsert (did : Nat) (term : String)
  | tagDelete (did : Nat) (term : String)
  | sidecar (fn : String) (content : JBytes)
  | backup (contents : String)
  | fatal (k : FatalKind)
  | logSkip (jsonUid dbUid : String)
deriving DecidableEq, Repr

/-- Lexicographic comparison of character lists by code point, the order in
which Go sort.Strings and the SQL order-by sort strings. -/
def charListLe : List Char → List Char → Bool
  | [], _ => true
  | _ :: _, [] => false
  | a :: as, b :: bs =>
    if a.toNat < b.toNat then true
    else if b.toNat < a.toNat then false
    else charListLe as bs

/-- The string order used by the model for sorting tags. -/
def strLe (a b : String) : Prop := charListLe a.data b.data = true

instance : DecidableRel strLe :=
  fun a b => inferInstanceAs (Decidable (charListLe a.data b.data = true))

/-- The terms associated to dashboard `did` in the tag table, in table order
(the unsorted result set of the tag query before its order-by). -/
def tagsOf (tt : TagTable) (did : Nat) : List String :=
  (tt.filter (fun r => decide (r.1 = did))).map (fun r => r.2)

/-- The result of `select term from dashboard_tag where dashboard_id = ?
order by term asc`: the terms for `did`, sorted ascending. -/
def dbTagsQuery (tt : TagTable) (did : Nat) : List String :=
  List.insertionSort strLe (tagsOf tt did)

/-- The tag synchronisation loop of updateTags (`for tag := range allMap`):
for each tag of the union, insert it when it is in JSON only and delete it
when it is in the database only.  Iteration order over the Go map is
unspecified; the model fixes one order via the list it is given. -/
def tagSync (did : Nat) (jin din : List String) :
    List String → TagTable → List Event × TagTable
  | [], tt => ([], tt)
  | t :: rest, tt =>
    if t ∈ jin ∧ t ∉ din then
      let r := tagSync did jin din rest (tt ++ [(did, t)])
      (Event.tagInsert did t :: r.1, r.2)
    else if t ∉ jin ∧ t ∈ din then
      let r := tagSync did jin din rest
        (tt.filter (fun p => decide (¬ (p.1 = did ∧ p.2 = t))))
      (Event.tagDelete did t :: r.1, r.2)
    else
      tagSync did jin din rest tt

/-- updateTags of sqlitedb.go: read the database tags of dashboard `did`
sorted ascending, sort the JSON tags, and if the comma-joined strings are
equal return false without touching anything; otherwise insert every tag
present only in JSON, delete every tag present only in the database, and
return true.  The result is (events, new tag table, changed). -/
def updateTags (did : Nat) (jsonTags : List String) (tt : TagTable) :
    List Event × TagTable × Bool :=
  let dbTags := dbTagsQuery tt did
  let sortedTags := List.insertionSort strLe jsonTags
  if String.intercalate ( "," : String) sortedTags
      = String.intercalate ( "," : String) dbTags then
    ([], tt, false)
  else
    let r := tagSync did sortedTags dbTags ((sortedTags ++ dbTags).dedup) tt
    (r.1, r.2, true)

theorem charListLe_cons {x y : Char} {xs ys : List Char} :
    charListLe (x :: xs) (y :: ys) = true ↔
      (x.toNat < y.toNat ∨ (x.toNat = y.toNat ∧ charListLe xs ys = true)) := by
  simp only [charListLe]
  by_cases h1 : x.toNat < y.toNat
  · simp [h1]
  · by_cases h2 : y.toNat < x.toNat
    · simp [h1, h2]
      omega
    · have h3 : x.toNat = y.toNat := by omega
      simp [h1, h2, h3]

theorem char_eq_of_toNat_eq {x y : Char} (h : x.toNat = y.toNat) : x = y := by
  have h2 := congrArg Char.ofNat h
  rwa [Char.ofNat_toNat, Char.ofNat_toNat] at h2

theorem charListLe_total : ∀ a b : List Char,
    charListLe a b = true ∨ charListLe b a = true
  | [], _ => Or.inl rfl
  | _ :: _, [] => Or.inr rfl
  | x :: xs, y :: ys => by
    rcases Nat.lt_trichotomy x.toNat y.toNat with h | h | h
    · exact Or.inl (charListLe_cons.2 (Or.inl h))
    · rcases charListLe_total xs ys with h2 | h2
      · exact Or.inl (charListLe_cons.2 (Or.inr ⟨h, h2⟩))
      · exact Or.inr (charListLe_cons.2 (Or.inr ⟨h.symm, h2⟩))
    · exact Or.inr (charListLe_cons.2 (Or.inl h))

theorem charListLe_trans : ∀ {a b c : List Char},
    charListLe a b = true → charListLe b c = true → charListLe a c = true
  | [], _, _, _, _ => rfl
  | _ :: _, [], _, h, _ => by simp [charListLe] at h
  | _ :: _, _ :: _, [], _, h => by simp [charListLe] at h
  | _ :: _, _ :: _, _ :: _, h₁, h₂ => by
    rcases charListLe_cons.1 h₁ with h₁ | ⟨h₁, r₁⟩ <;>
      rcases charListLe_cons.1 h₂ with h₂ | ⟨h₂, r₂⟩
    · exact charListLe_cons.2 (Or.inl (by omega))
    · exact charListLe_cons.2 (Or.inl (by omega))
    · exact charListLe_cons.2 (Or.inl (by omega))
    · exact charListLe_cons.2 (Or.inr ⟨by omega, charListLe_trans r₁ r₂⟩)

theorem charListLe_antisymm : ∀ {a b : List Char},
    charListLe a b = true → charListLe b a = true → a = b
  | [], [], _, _ => rfl
  | [], _ :: _, _, h => by simp [charListLe] at h
  | _ :: _, [], h, _ => by simp [charListLe] at h
  | x :: xs, y :: ys, h₁, h₂ => by
    rcases charListLe_cons.1 h₁ with h₁ | ⟨h₁, r₁⟩ <;>
      rcases charListLe_cons.1 h₂ with h₂ | ⟨h₂, r₂⟩
    · omega
    · omega
    · omega
    · exact char_eq_of_toNat_eq h₁ ▸ congrArg (x :: ·) (charListLe_antisymm r₁ r₂)

instance : IsTotal String strLe := ⟨fun a b => charListLe_total a.data b.data⟩

instance : IsTrans String strLe := ⟨fun _ _ _ => charListLe_trans⟩

instance : IsAntisymm String strLe :=
  ⟨fun _ _ h₁ h₂ => String.ext (charListLe_antisymm h₁ h₂)⟩

/-- Character mapping of the slug generator: keep alphanumerics lowercased,
turn anything else into a hyphen. -/
def slugMapChar (c : Char) : Char :=
  if c.isAlphanum then c.toLower else ('-' : Char)

/-- Collapse runs of hyphens to a single hyphen. -/
def squeezeHyphens : List Char → List Char
  | [] => []
  | [c] => [c]
  | a :: b :: r =>
    if a = ('-' : Char) ∧ b = ('-' : Char) then squeezeHyphens (b :: r)
    else a :: squeezeHyphens (b :: r)

/-- Drop leading and trailing hyphens. -/
def trimHyphens (l : List Char) : List Char :=
  ((l.dropWhile (fun c => decide (c = ('-' : Char)))).reverse.dropWhile
    (fun c => decide (c = ('-' : Char)))).reverse

/-- Modelled from the spec (section 4.3): lib.Slugify, the deterministic
title to slug transformation: lowercase, collapse non-alphanumeric runs to
single hyphens, trim leading and trailing hyphens. -/
def Slugify (s : String) : String :=
  ⟨trimHyphens (squeezeHyphens (s.data.map slugMapChar))⟩

/-- Modelled from the spec (section 1, out-of-scope helpers): lib.ReadFile,
looking a path up in the run Modelled filesystem; `none` is a read error. -/
def readFile (files : List (String × JBytes)) (fn : String) : Option JBytes :=
  Option.map Prod.snd (files.find? (fun p => decide (p.1 = fn)))

/-- Lookup in a Go map modelled as an association list. -/
def mget {α : Type} (m : List (String × α)) (k : String) : Option α :=
  Option.map Prod.snd (m.find? (fun p => decide (p.1 = k)))

/-- Assignment `m[k] = v` in a Go map modelled as an association list: any
previous binding of `k` is replaced. -/
def mput {α : Type} (m : List (String × α)) (k : String) (v : α) :
    List (String × α) :=
  m.filter (fun p => decide (p.1 ≠ k)) ++ [(k, v)]

/-- The dashboardData struct of sqlitedb.go: parsed dashboard keys plus the
row id, title, slug, data and the source filename. -/
structure DashData where
  dash : dashboard
  id : Nat
  title : String
  slug : String
  data : JBytes
  fn : String
deriving DecidableEq, Inhabited, Repr

/-- One row of the first loop of importJsonsByUID: scan a dashboard row,
parse its data, fail on a stored-title inconsistency, canonicalise the data
and map the embedded uid to the row. -/
def loadDbRow (m : List (String × DashData)) (row : DBRow) :
    Except FatalKind (List (String × DashData)) :=
  let dash := Unmarshal row.data
  if row.title ≠ dash.title then
    Except.error (FatalKind.inconsistent row.title dash.title)
  else
    Except.ok (mput m dash.uid
      { dash := dash, id := row.id, title := row.title, slug := row.slug,
        data := PrettyPrintJSON row.data,
        fn := ( "*" : String) ++ row.slug ++ ( ".json*" : String) })

/-- The uid to dashboard-row map built by importJsonsByUID from the whole
dashboard table (its first loop). -/
def loadDbMap : DashTable → List (String × DashData) →
    Except FatalKind (List (String × DashData))
  | [], m => Except.ok m
  | row :: rest, m =>
    match loadDbRow m row with
    | Except.error k => Except.error k
    | Except.ok m₂ => loadDbMap rest m₂

/-- One step of the second loop of importJsonsByUID: read a JSON argument,
parse it, fail if its uid is unknown to the database map or already present
in the JSON map, and otherwise record it with canonicalised data, the
matched row id and a slug computed from its title. -/
def loadJsonFile (files : List (String × JBytes))
    (dbMap jsonMap : List (String × DashData)) (j : String) :
    Except FatalKind (List (String × DashData)) :=
  match readFile files j with
  | none => Except.error (FatalKind.readErr j)
  | some bytes =>
    let dash := Unmarshal bytes
    match mget dbMap dash.uid with
    | none => Except.error (FatalKind.uidNotFound j dash.uid)
    | some dbDash =>
      match mget jsonMap dash.uid with
      | some _ => Except.error (FatalKind.dupUid j dash.uid)
      | none =>
        Except.ok (mput jsonMap dash.uid
          { dash := dash, id := dbDash.id, title := dash.title,
            slug := Slugify dash.title, data := PrettyPrintJSON bytes,
            fn := j })

/-- The uid to parsed-input map built by the second loop of
importJsonsByUID. -/
def loadJsonMap (files : List (String × JBytes))
    (dbMap : List (String × DashData)) :
    List String → List (String × DashData) →
    Except FatalKind (List (String × DashData))
  | [], m => Except.ok m
  | j :: rest, m =>
    match loadJsonFile files dbMap m j with
    | Except.error k => Except.error k
    | Except.ok m₂ => loadJsonMap files dbMap rest m₂

/-- The mutable state threaded through an import run: the two tables, the
lazy backup flag and the imported counter. -/
structure RunState where
  dash : DashTable
  tags : TagTable
  backedUp : Bool
  nImp : Nat
deriving DecidableEq, Repr

/-- The backupFunc closure guarded by the backedUp flag: the first call
writes the database bytes captured at the start of the run to a timestamped
file, later calls do nothing. -/
def ensureBackup (contents : String) (backedUp : Bool) : List Event × Bool :=
  if backedUp then ([], true) else ([Event.backup contents], true)

/-- The SQL statement `update dashboard set title = ?, slug = ?, data = ? where id = ?`. -/
def updDash (t : DashTable) (did : Nat) (title slug : String) (data : JBytes) :
    DashTable :=
  t.map (fun r =>
    if r.id = did then { r with title := title, slug := slug, data := data }
    else r)

/-- Processing of one entry of the jsonMap in the update loop of
importJsonsByUID: reconcile tags first, then either skip the row update when
title, slug and data are all unchanged (still triggering the lazy backup if
the tags changed) or update the row, write the sidecar and trigger the lazy
backup. -/
def uidStep (contents : String) (dbMap : List (String × DashData))
    (st : RunState) (entry : String × DashData) : List Event × RunState :=
  let dd := entry.2
  let ddWas := (mget dbMap entry.1).getD default
  let tr := updateTags dd.id dd.dash.tags st.tags
  if ddWas.dash.title = dd.dash.title ∧ ddWas.slug = dd.slug ∧
      ddWas.data = dd.data then
    if tr.2.2 then
      let b := ensureBackup contents st.backedUp
      (tr.1 ++ b.1,
       { st with tags := tr.2.1, backedUp := b.2, nImp := st.nImp + 1 })
    else
      (tr.1, { st with tags := tr.2.1 })
  else
    let b := ensureBackup contents st.backedUp
    (tr.1 ++ [Event.execUpdate dd.id dd.dash.title dd.slug dd.data]
        ++ [Event.sidecar (dd.fn ++ ( ".was" : String)) ddWas.data] ++ b.1,
     { st with
        dash := updDash st.dash dd.id dd.dash.title dd.slug dd.data,
        tags := tr.2.1, backedUp := b.2, nImp := st.nImp + 1 })

/-- The update loop of importJsonsByUID over the jsonMap entries. -/
def uidLoop (contents : String) (dbMap : List (String × DashData)) :
    List (String × DashData) → RunState → List Event × RunState
  | [], st => ([], st)
  | e :: rest, st =>
    let s := uidStep contents dbMap st e
    let r := uidLoop contents dbMap rest s.2
    (s.1 ++ r.1, r.2)

/-- The state at the start of a run: the two tables as found in the
database, no backup yet, nothing imported. -/
def initState (rows : DashTable) (tt : TagTable) : RunState :=
  ⟨rows, tt, false, 0⟩

/-- importJsonsByUID of sqlitedb.go.  `contents` is the database file bytes
read at the very start of the run, `rows` and `tt` the two tables, `files`
the filesystem, `jsons` the argument list.  A fatal error aborts the run
with a single fatal event and no other effect. -/
def importJsonsByUID (contents : String) (rows : DashTable) (tt : TagTable)
    (files : List (String × JBytes)) (jsons : List String) :
    List Event × RunState :=
  match loadDbMap rows [] with
  | Except.error k => ([Event.fatal k], initState rows tt)
  | Except.ok dbMap =>
    match loadJsonMap files dbMap jsons [] with
    | Except.error k => ([Event.fatal k], initState rows tt)
    | Except.ok jsonMap => uidLoop contents dbMap jsonMap (initState rows tt)

/-- Go strings.Split on a single-character separator. -/
def splitChars (sep : Char) : List Char → List (List Char)
  | [] => [[]]
  | c :: rest =>
    let r := splitChars sep rest
    if c = sep then [] :: r
    else (c :: r.headD []) :: r.tail

/-- The `strings.Split(jdata, ";")` of importJsonsByTitle. -/
def splitSemi (s : String) : List String :=
  (splitChars (';' : Char) s.data).map (fun l => ⟨l⟩)

/-- Element `ary[1]` when the item carries an old-title override, else the title of
the parsed document. -/
def overrideTitle (ary : List String) (d : dashboard) : String :=
  match ary with
  | _ :: t :: _ => t
  | _ => d.title

/-- Element `ary[2]` when the item carries a new-slug override, else the slug of the
matched row. -/
def overrideSlug (ary : List String) (s : String) : String :=
  match ary with
  | _ :: _ :: t :: _ => t
  | _ => s

/-- The query `select id, data, slug from dashboard where title = ?` followed by the
scan loop of importJsonsByTitle, which keeps the last matching row. -/
def lastTitleMatch (rows : DashTable) (t : String) : Option DBRow :=
  (rows.filter (fun r => decide (r.title = t))).getLast?

/-- Processing of one argument of importJsonsByTitle.  The last component is
true when the run aborts fatally.  On a uid mismatch the item is logged and
skipped.  Otherwise the row is updated with the raw input bytes, tags are
reconciled, the sidecar holding the canonicalised previous data is written
and the lazy backup is triggered. -/
def titleStep (contents : String) (files : List (String × JBytes))
    (st : RunState) (jdata : String) : List Event × RunState × Bool :=
  let ary := splitSemi jdata
  let j := ary.headD ( "" : String)
  if ¬ (ary.length = 1 ∨ ary.length = 3) then
    ([Event.fatal FatalKind.badArity], st, true)
  else
    match readFile files j with
    | none => ([Event.fatal (FatalKind.readErr j)], st, true)
    | some bytes =>
      let dash := Unmarshal bytes
      let dashTitle := overrideTitle ary dash
      match lastTitleMatch st.dash dashTitle with
      | none => ([Event.fatal (FatalKind.titleNotFound dashTitle)], st, true)
      | some row =>
        let dash2 := Unmarshal row.data
        if dash.uid ≠ dash2.uid then
          ([Event.logSkip dash.uid dash2.uid], st, false)
        else
          let dashSlug := overrideSlug ary row.slug
          let tr := updateTags row.id dash.tags st.tags
          let b := ensureBackup contents st.backedUp
          (Event.execUpdate row.id dash.title dashSlug bytes :: tr.1
              ++ [Event.sidecar (j ++ ( ".was" : String))
                    (PrettyPrintJSON row.data)] ++ b.1,
           ({ st with
                dash := updDash st.dash row.id dash.title dashSlug bytes,
                tags := tr.2.1, backedUp := b.2 }, false))

/-- The item loop of importJsonsByTitle: a fatal item ends the run, a
skipped or updated item lets the loop continue. -/
def titleLoop (contents : String) (files : List (String × JBytes)) :
    List String → RunState → List Event × RunState
  | [], st => ([], st)
  | item :: rest, st =>
    let s := titleStep contents files st item
    if s.2.2 then (s.1, s.2.1)
    else
      let r := titleLoop contents files rest s.2.1
      (s.1 ++ r.1, r.2)

/-- importJsonsByTitle of sqlitedb.go, with the same calling convention as
`importJsonsByUID`. -/
def importJsonsByTitle (contents : String) (rows : DashTable)
    (tt : TagTable) (files : List (String × JBytes)) (jsons : List String) :
    List Event × RunState :=
  titleLoop contents files jsons (initState rows tt)

/-- True for the SQL statements that modify the database. -/
def isDbWrite : Event → Bool
  | Event.execUpdate _ _ _ _ => true
  | Event.tagInsert _ _ => true
  | Event.tagDelete _ _ => true
  | _ => false

/-- True for the full-database backup file write. -/
def isBackup : Event → Bool
  | Event.backup _ => true
  | _ => false

/-- True for fatal termination. -/
def isFatal : Event → Bool
  | Event.fatal _ => true
  | _ => false

/-- True for sidecar file writes. -/
def isSidecar : Event → Bool
  | Event.sidecar _ _ => true
  | _ => false

/-- The temporal property claimed for the backup: every database write is
preceded, strictly earlier in the trace, by the backup file write. -/
def backupBeforeWrites (tr : List Event) : Prop :=
  ∀ i : Fin tr.length, isDbWrite (tr.get i) = true →
    ∃ j : Fin tr.length, j.1 < i.1 ∧ isBackup (tr.get j) = true

instance (tr : List Event) : Decidable (backupBeforeWrites tr) := by
  unfold backupBeforeWrites
  infer_instance

theorem tagSync_events {did : Nat} {jin din : List String} : ∀ {u : List String}
    {tt : TagTable} {ev : Event}, ev ∈ (tagSync did jin din u tt).1 →
    ∃ t, ev = Event.tagInsert did t ∨ ev = Event.tagDelete did t
  | [], _, _, h => by simp [tagSync] at h
  | t :: rest, tt, ev, h => by
    simp only [tagSync] at h
    split at h
    · rcases List.mem_cons.1 h with h | h
      · exact ⟨t, Or.inl h⟩
      · exact tagSync_events h
    · split at h
      · rcases List.mem_cons.1 h with h | h
        · exact ⟨t, Or.inr h⟩
        · exact tagSync_events h
      · exact tagSync_events h

theorem updateTags_events {did : Nat} {A : List String} {tt : TagTable}
    {ev : Event} (h : ev ∈ (updateTags did A tt).1) :
    ∃ t, ev = Event.tagInsert did t ∨ ev = Event.tagDelete did t := by
  simp only [updateTags] at h
  split at h
  · simp at h
  · exact tagSync_events h

theorem updateTags_not_changed {did : Nat} {A : List String} {tt : TagTable}
    (h : (updateTags did A tt).2.2 = false) :
    updateTags did A tt = ([], tt, false) := by
  simp only [updateTags] at h ⊢
  split at h
  · rename_i hc
    rw [if_pos hc]
  · simp at h

theorem updateTags_event_not_backup {did : Nat} {A : List String}
    {tt : TagTable} {ev : Event} (h : ev ∈ (updateTags did A tt).1) :
    isBackup ev = false := by
  rcases updateTags_events h with ⟨t, h | h⟩ <;> subst h <;> rfl

theorem updateTags_event_not_exec {did : Nat} {A : List String}
    {tt : TagTable} {ev : Event} (h : ev ∈ (updateTags did A tt).1) :
    (∀ i t s d, ev ≠ Event.execUpdate i t s d) := by
  rcases updateTags_events h with ⟨t, h | h⟩ <;> subst h <;> intro i t s d <;>
    exact fun hc => Event.noConfusion hc

theorem ensureBackup_snd (c : String) (b : Bool) :
    (ensureBackup c b).2 = true := by
  cases b <;> rfl

theorem ensureBackup_mem {c : String} {b : Bool} {ev : Event}
    (h : ev ∈ (ensureBackup c b).1) : ev = Event.backup c := by
  cases b <;> simp [ensureBackup] at h
  exact h

theorem ensureBackup_countP (c : String) (b : Bool) :
    List.countP isBackup (ensureBackup c b).1 + (if b then 1 else 0)
      = (if (ensureBackup c b).2 then 1 else 0) := by
  cases b <;> simp [ensureBackup, isBackup]

/-- The three facts needed about a single uidStep: backup events carry the
run-start bytes, the backup count equals the rise of the backedUp flag, and
any database write forces the flag at exit. -/
theorem uidStep_backup (c : String) (dbMap : List (String × DashData))
    (st : RunState) (e : String × DashData) :
    (∀ ev ∈ (uidStep c dbMap st e).1, isBackup ev = true →
        ev = Event.backup c) ∧
    (List.countP isBackup (uidStep c dbMap st e).1
        + (if st.backedUp then 1 else 0)
      = (if (uidStep c dbMap st e).2.backedUp then 1 else 0)) ∧
    ((∃ ev ∈ (uidStep c dbMap st e).1, isDbWrite ev = true) →
      (uidStep c dbMap st e).2.backedUp = true) := by
  simp only [uidStep]
  split
  · split
    · refine ⟨?_, ?_, ?_⟩
      · intro ev hm _
        rcases List.mem_append.1 hm with hm | hm
        · exact absurd (updateTags_event_not_backup hm) (by simp_all)
        · exact ensureBackup_mem hm
      · simp only [List.countP_append]
        have h1 : List.countP isBackup (updateTags (e.2.id) e.2.dash.tags st.tags).1 = 0 := by
          rw [List.countP_eq_zero]
          exact fun ev hm => by simp [updateTags_event_not_backup hm]
        rw [h1]
        simpa using ensureBackup_countP c st.backedUp
      · intro _
        exact ensureBackup_snd c st.backedUp
    · rename_i hch
      rw [Bool.not_eq_true] at hch
      rw [updateTags_not_changed hch]
      refine ⟨?_, ?_, ?_⟩
      · intro ev hm
        simp at hm
      · simp
      · intro ⟨ev, hm, _⟩
        simp at hm
  · refine ⟨?_, ?_, ?_⟩
    · intro ev hm _
      rcases List.mem_append.1 hm with hm | hm
      · rcases List.mem_append.1 hm with hm | hm
        · rcases List.mem_append.1 hm with hm | hm
          · exact absurd (updateTags_event_not_backup hm) (by simp_all)
          · simp only [List.mem_singleton] at hm
            subst hm
            simp_all [isBackup]
        · simp only [List.mem_singleton] at hm
          subst hm
          simp_all [isBackup]
      · exact ensureBackup_mem hm
    · simp only [List.countP_append]
      have h1 : List.countP isBackup (updateTags (e.2.id) e.2.dash.tags st.tags).1 = 0 := by
        rw [List.countP_eq_zero]
        exact fun ev hm => by simp [updateTags_event_not_backup hm]
      rw [h1]
      simp only [List.countP_singleton]
      have : isBackup (Event.execUpdate e.2.id e.2.dash.title e.2.slug e.2.data) = false := rfl
      simp only [List.countP_cons, List.countP_nil, this, isBackup]
      simpa using ensureBackup_countP c st.backedUp
    · intro _
      exact ensureBackup_snd c st.backedUp


theorem titleStep_arity {c : String} {files : List (String × JBytes)}
    {st : RunState} {jdata : String}
    (ha : ¬ ((splitSemi jdata).length = 1 ∨ (splitSemi jdata).length = 3)) :
    titleStep c files st jdata = ([Event.fatal FatalKind.badArity], st, true) := by
  simp only [titleStep, if_pos ha]

theorem titleStep_readErr {c : String} {files : List (String × JBytes)}
    {st : RunState} {jdata : String}
    (ha : (splitSemi jdata).length = 1 ∨ (splitSemi jdata).length = 3)
    (hr : readFile files ((splitSemi jdata).headD ( "")) = none) :
    titleStep c files st jdata =
      ([Event.fatal (FatalKind.readErr ((splitSemi jdata).headD ( "")))],
       st, true) := by
  simp only [titleStep, if_neg (not_not_intro ha), List.headD_eq_head?_getD] at hr ⊢
  rw [hr]

theorem titleStep_notFound {c : String} {files : List (String × JBytes)}
    {st : RunState} {jdata : String} {bytes : JBytes}
    (ha : (splitSemi jdata).length = 1 ∨ (splitSemi jdata).length = 3)
    (hr : readFile files ((splitSemi jdata).headD ( "")) = some bytes)
    (hl : lastTitleMatch st.dash
      (overrideTitle (splitSemi jdata) (Unmarshal bytes)) = none) :
    titleStep c files st jdata =
      ([Event.fatal (FatalKind.titleNotFound
          (overrideTitle (splitSemi jdata) (Unmarshal bytes)))], st, true) := by
  simp only [titleStep, if_neg (not_not_intro ha), List.headD_eq_head?_getD] at hr hl ⊢
  rw [hr]
  simp only [hl]

theorem titleStep_skip {c : String} {files : List (String × JBytes)}
    {st : RunState} {jdata : String} {bytes : JBytes} {row : DBRow}
    (ha : (splitSemi jdata).length = 1 ∨ (splitSemi jdata).length = 3)
    (hr : readFile files ((splitSemi jdata).headD ( "")) = some bytes)
    (hl : lastTitleMatch st.dash
      (overrideTitle (splitSemi jdata) (Unmarshal bytes)) = some row)
    (hu : (Unmarshal bytes).uid ≠ (Unmarshal row.data).uid) :
    titleStep c files st jdata =
      ([Event.logSkip (Unmarshal bytes).uid (Unmarshal row.data).uid],
       st, false) := by
  simp only [titleStep, if_neg (not_not_intro ha), List.headD_eq_head?_getD] at hr hl ⊢
  rw [hr]
  simp only [hl, if_pos hu]

theorem titleStep_update {c : String} {files : List (String × JBytes)}
    {st : RunState} {jdata : String} {bytes : JBytes} {row : DBRow}
    (ha : (splitSemi jdata).length = 1 ∨ (splitSemi jdata).length = 3)
    (hr : readFile files ((splitSemi jdata).headD ( "")) = some bytes)
    (hl : lastTitleMatch st.dash
      (overrideTitle (splitSemi jdata) (Unmarshal bytes)) = some row)
    (hu : (Unmarshal bytes).uid = (Unmarshal row.data).uid) :
    titleStep c files st jdata =
      (Event.execUpdate row.id (Unmarshal bytes).title
          (overrideSlug (splitSemi jdata) row.slug) bytes
        :: ((updateTags row.id (Unmarshal bytes).tags st.tags).1
          ++ [Event.sidecar (((splitSemi jdata).headD ( "")) ++ ( ".was" : String))
                (PrettyPrintJSON row.data)]
          ++ (ensureBackup c st.backedUp).1),
       ({ st with
            dash := updDash st.dash row.id (Unmarshal bytes).title
              (overrideSlug (splitSemi jdata) row.slug) bytes,
            tags := (updateTags row.id (Unmarshal bytes).tags st.tags).2.1,
            backedUp := (ensureBackup c st.backedUp).2 }, false)) := by
  simp only [titleStep, if_neg (not_not_intro ha), List.headD_eq_head?_getD] at hr hl ⊢
  rw [hr]
  simp only [hl, if_neg (not_not_intro hu)]
  simp [List.append_assoc]

theorem titleStep_backup (c : String) (files : List (String × JBytes))
    (st : RunState) (jdata : String) :
    (∀ ev ∈ (titleStep c files st jdata).1, isBackup ev = true →
        ev = Event.backup c) ∧
    (List.countP isBackup (titleStep c files st jdata).1
        + (if st.backedUp then 1 else 0)
      = (if (titleStep c files st jdata).2.1.backedUp then 1 else 0)) ∧
    ((∃ ev ∈ (titleStep c files st jdata).1, isDbWrite ev = true) →
      (titleStep c files st jdata).2.1.backedUp = true) := by
  by_cases ha : (splitSemi jdata).length = 1 ∨ (splitSemi jdata).length = 3
  case neg =>
    rw [titleStep_arity ha]
    refine ⟨fun ev hm => by simp at hm; simp [hm, isBackup], by simp [isBackup], ?_⟩
    intro ⟨ev, hm, hw⟩
    simp at hm
    simp [hm, isDbWrite] at hw
  case pos =>
  rcases hr : readFile files ((splitSemi jdata).headD ( "")) with _ | bytes
  case none =>
    rw [titleStep_readErr ha hr]
    refine ⟨fun ev hm => by simp at hm; simp [hm, isBackup], by simp [isBackup], ?_⟩
    intro ⟨ev, hm, hw⟩
    simp at hm
    simp [hm, isDbWrite] at hw
  case some =>
  rcases hl : lastTitleMatch st.dash
      (overrideTitle (splitSemi jdata) (Unmarshal bytes)) with _ | row
  case none =>
    rw [titleStep_notFound ha hr hl]
    refine ⟨fun ev hm => by simp at hm; simp [hm, isBackup], by simp [isBackup], ?_⟩
    intro ⟨ev, hm, hw⟩
    simp at hm
    simp [hm, isDbWrite] at hw
  case some =>
  by_cases hu : (Unmarshal bytes).uid = (Unmarshal row.data).uid
  case neg =>
    rw [titleStep_skip ha hr hl hu]
    refine ⟨fun ev hm => by simp at hm; simp [hm, isBackup], by simp [isBackup], ?_⟩
    intro ⟨ev, hm, hw⟩
    simp at hm
    simp [hm, isDbWrite] at hw
  case pos =>
  rw [titleStep_update ha hr hl hu]
  refine ⟨?_, ?_, ?_⟩
  · intro ev hm _
    rcases List.mem_cons.1 hm with hm | hm
    · subst hm
      simp_all [isBackup]
    · rcases List.mem_append.1 hm with hm | hm
      · rcases List.mem_append.1 hm with hm | hm
        · exact absurd (updateTags_event_not_backup hm) (by simp_all)
        · simp only [List.mem_singleton] at hm
          subst hm
          simp_all [isBackup]
      · exact ensureBackup_mem hm
  · simp only [List.countP_cons, List.countP_append]
    have h1 : List.countP isBackup
        (updateTags row.id (Unmarshal bytes).tags st.tags).1 = 0 := by
      rw [List.countP_eq_zero]
      exact fun ev hm => by simp [updateTags_event_not_backup hm]
    rw [h1]
    have h2 : isBackup (Event.execUpdate row.id (Unmarshal bytes).title
        (overrideSlug (splitSemi jdata) row.slug) bytes) = false := rfl
    simp only [h2, List.countP_nil, isBackup]
    simpa using ensureBackup_countP c st.backedUp
  · intro _
    exact ensureBackup_snd c st.backedUp

theorem uidLoop_backup (c : String) (dbMap : List (String × DashData)) :
    ∀ (items : List (String × DashData)) (st : RunState),
    (∀ ev ∈ (uidLoop c dbMap items st).1, isBackup ev = true →
        ev = Event.backup c) ∧
    (List.countP isBackup (uidLoop c dbMap items st).1
        + (if st.backedUp then 1 else 0)
      = (if (uidLoop c dbMap items st).2.backedUp then 1 else 0)) ∧
    ((∃ ev ∈ (uidLoop c dbMap items st).1, isDbWrite ev = true) →
      (∃ ev ∈ (uidLoop c dbMap items st).1, isBackup ev = true)
        ∨ st.backedUp = true)
  | [], st => by
    refine ⟨fun ev hm => by simp [uidLoop] at hm, by simp [uidLoop], ?_⟩
    intro ⟨ev, hm, _⟩
    simp [uidLoop] at hm
  | e :: rest, st => by
    obtain ⟨sp, sc, sw⟩ := uidStep_backup c dbMap st e
    obtain ⟨ip, ic, iw⟩ := uidLoop_backup c dbMap rest (uidStep c dbMap st e).2
    simp only [uidLoop]
    refine ⟨?_, ?_, ?_⟩
    · intro ev hm hb
      rcases List.mem_append.1 hm with hm | hm
      · exact sp ev hm hb
      · exact ip ev hm hb
    · rw [List.countP_append]
      omega
    · intro ⟨ev, hm, hw⟩
      have hstep : (uidStep c dbMap st e).2.backedUp = true →
          st.backedUp = true ∨ ∃ ev2 ∈ (uidStep c dbMap st e).1,
            isBackup ev2 = true := by
        intro hf
        by_cases hst : st.backedUp = true
        · exact Or.inl hst
        · refine Or.inr ?_
          rw [← List.countP_pos_iff]
          simp [hst, hf] at sc
          omega
      rcases List.mem_append.1 hm with hm | hm
      · have hf := sw ⟨ev, hm, hw⟩
        rcases hstep hf with h | ⟨ev2, h2, h3⟩
        · exact Or.inr h
        · exact Or.inl ⟨ev2, List.mem_append.2 (Or.inl h2), h3⟩
      · rcases iw ⟨ev, hm, hw⟩ with ⟨ev2, h2, h3⟩ | hf
        · exact Or.inl ⟨ev2, List.mem_append.2 (Or.inr h2), h3⟩
        · rcases hstep hf with h | ⟨ev2, h2, h3⟩
          · exact Or.inr h
          · exact Or.inl ⟨ev2, List.mem_append.2 (Or.inl h2), h3⟩

theorem titleLoop_backup (c : String) (files : List (String × JBytes)) :
    ∀ (items : List String) (st : RunState),
    (∀ ev ∈ (titleLoop c files items st).1, isBackup ev = true →
        ev = Event.backup c) ∧
    (List.countP isBackup (titleLoop c files items st).1
        + (if st.backedUp then 1 else 0)
      = (if (titleLoop c files items st).2.backedUp then 1 else 0)) ∧
    ((∃ ev ∈ (titleLoop c files items st).1, isDbWrite ev = true) →
      (∃ ev ∈ (titleLoop c files items st).1, isBackup ev = true)
        ∨ st.backedUp = true)
  | [], st => by
    refine ⟨fun ev hm => by simp [titleLoop] at hm, by simp [titleLoop], ?_⟩
    intro ⟨ev, hm, _⟩
    simp [titleLoop] at hm
  | item :: rest, st => by
    obtain ⟨sp, sc, sw⟩ := titleStep_backup c files st item
    have hstep : (titleStep c files st item).2.1.backedUp = true →
        st.backedUp = true ∨ ∃ ev2 ∈ (titleStep c files st item).1,
          isBackup ev2 = true := by
      intro hf
      by_cases hst : st.backedUp = true
      · exact Or.inl hst
      · refine Or.inr ?_
        rw [← List.countP_pos_iff]
        simp [hst, hf] at sc
        omega
    simp only [titleLoop]
    split
    · exact ⟨sp, sc, fun hw => (hstep (sw hw)).symm.imp id id⟩
    · obtain ⟨ip, ic, iw⟩ :=
        titleLoop_backup c files rest (titleStep c files st item).2.1
      refine ⟨?_, ?_, ?_⟩
      · intro ev hm hb
        rcases List.mem_append.1 hm with hm | hm
        · exact sp ev hm hb
        · exact ip ev hm hb
      · rw [List.countP_append]
        dsimp only
        omega
      · intro ⟨ev, hm, hw⟩
        rcases List.mem_append.1 hm with hm | hm
        · rcases hstep (sw ⟨ev, hm, hw⟩) with h | ⟨ev2, h2, h3⟩
          · exact Or.inr h
          · exact Or.inl ⟨ev2, List.mem_append.2 (Or.inl h2), h3⟩
        · rcases iw ⟨ev, hm, hw⟩ with ⟨ev2, h2, h3⟩ | hf
          · exact Or.inl ⟨ev2, List.mem_append.2 (Or.inr h2), h3⟩
          · rcases hstep hf with h | ⟨ev2, h2, h3⟩
            · exact Or.inr h
            · exact Or.inl ⟨ev2, List.mem_append.2 (Or.inl h2), h3⟩

theorem uidRun_fatal_shape {c : String} {rows : DashTable} {tt : TagTable}
    {files : List (String × JBytes)} {jsons : List String} {k : FatalKind}
    (h : (loadDbMap rows [] = Except.error k) ∨
      (∃ dbMap, loadDbMap rows [] = Except.ok dbMap ∧
        loadJsonMap files dbMap jsons [] = Except.error k)) :
    importJsonsByUID c rows tt files jsons
      = ([Event.fatal k], initState rows tt) := by
  rcases h with h | ⟨dbMap, h1, h2⟩
  · simp only [importJsonsByUID, h]
  · simp only [importJsonsByUID, h1, h2]

theorem uidRun_loop_shape {c : String} {rows : DashTable} {tt : TagTable}
    {files : List (String × JBytes)} {jsons : List String}
    {dbMap jsonMap : List (String × DashData)}
    (h1 : loadDbMap rows [] = Except.ok dbMap)
    (h2 : loadJsonMap files dbMap jsons [] = Except.ok jsonMap) :
    importJsonsByUID c rows tt files jsons
      = uidLoop c dbMap jsonMap (initState rows tt) := by
  simp only [importJsonsByUID, h1, h2]

theorem uidRun_backup (c : String) (rows : DashTable) (tt : TagTable)
    (files : List (String × JBytes)) (jsons : List String) :
    (∀ ev ∈ (importJsonsByUID c rows tt files jsons).1, isBackup ev = true →
        ev = Event.backup c) ∧
    (List.countP isBackup (importJsonsByUID c rows tt files jsons).1
      = (if (importJsonsByUID c rows tt files jsons).2.backedUp
          then 1 else 0)) ∧
    ((∃ ev ∈ (importJsonsByUID c rows tt files jsons).1, isDbWrite ev = true) →
      ∃ ev ∈ (importJsonsByUID c rows tt files jsons).1, isBackup ev = true) := by
  rcases h1 : loadDbMap rows [] with k | dbMap
  · rw [uidRun_fatal_shape (Or.inl h1)]
    refine ⟨fun ev hm hb => ?_, by simp [isBackup, initState], ?_⟩
    · simp at hm
      simp [hm, isBackup] at hb
    · intro ⟨ev, hm, hw⟩
      simp at hm
      simp [hm, isDbWrite] at hw
  · rcases h2 : loadJsonMap files dbMap jsons [] with k | jsonMap
    · rw [uidRun_fatal_shape (Or.inr ⟨dbMap, h1, h2⟩)]
      refine ⟨fun ev hm hb => ?_, by simp [isBackup, initState], ?_⟩
      · simp at hm
        simp [hm, isBackup] at hb
      · intro ⟨ev, hm, hw⟩
        simp at hm
        simp [hm, isDbWrite] at hw
    · rw [uidRun_loop_shape h1 h2]
      obtain ⟨lp, lc, lw⟩ := uidLoop_backup c dbMap jsonMap (initState rows tt)
      refine ⟨lp, ?_, ?_⟩
      · simpa [initState] using lc
      · intro hw
        rcases lw hw with h | h
        · exact h
        · simp [initState] at h

theorem titleRun_backup (c : String) (rows : DashTable) (tt : TagTable)
    (files : List (String × JBytes)) (jsons : List String) :
    (∀ ev ∈ (importJsonsByTitle c rows tt files jsons).1, isBackup ev = true →
        ev = Event.backup c) ∧
    (List.countP isBackup (importJsonsByTitle c rows tt files jsons).1
      = (if (importJsonsByTitle c rows tt files jsons).2.backedUp
          then 1 else 0)) ∧
    ((∃ ev ∈ (importJsonsByTitle c rows tt files jsons).1,
        isDbWrite ev = true) →
      ∃ ev ∈ (importJsonsByTitle c rows tt files jsons).1,
        isBackup ev = true) := by
  obtain ⟨lp, lc, lw⟩ := titleLoop_backup c files jsons (initState rows tt)
  refine ⟨lp, by simpa [initState, importJsonsByTitle] using lc, ?_⟩
  intro hw
  rcases lw hw with h | h
  · exact h
  · simp [initState] at h


/-- Claim C2, counterexample: in this Title Matching run the dashboard row
update is executed first and the backup file is only written afterwards, so
it is false that no database write is ever executed before the backup file
has been written. -/
theorem C2_counterexample :
    ¬ backupBeforeWrites (importJsonsByTitle ( "DB")
      [⟨1, ( "T"), ( "t"), ⟨⟨ "T", "u", [], ""⟩, true⟩⟩] []
      [( ( "f"), ⟨⟨ "T", "u", [], ""⟩, false⟩)] [( "f")]).1 := by
  decide

/-- Claim C2, amended: in every import run of either strategy, any run that
performs a database write also writes the full-database backup file, and
every backup file written holds the database bytes captured at the start of
the run, before any mutation; the writes of the first changed item, however,
execute before the backup file is written. -/
theorem C2_amended (c : String) (rows : DashTable) (tt : TagTable)
    (files : List (String × JBytes)) (jsons : List String) :
    (∀ ev ∈ (importJsonsByUID c rows tt files jsons).1, isBackup ev = true →
        ev = Event.backup c) ∧
    (∀ ev ∈ (importJsonsByTitle c rows tt files jsons).1, isBackup ev = true →
        ev = Event.backup c) ∧
    ((∃ ev ∈ (importJsonsByUID c rows tt files jsons).1, isDbWrite ev = true) →
      ∃ ev ∈ (importJsonsByUID c rows tt files jsons).1, isBackup ev = true) ∧
    ((∃ ev ∈ (importJsonsByTitle c rows tt files jsons).1,
        isDbWrite ev = true) →
      ∃ ev ∈ (importJsonsByTitle c rows tt files jsons).1,
        isBackup ev = true) :=
  ⟨(uidRun_backup c rows tt files jsons).1,
   (titleRun_backup c rows tt files jsons).1,
   (uidRun_backup c rows tt files jsons).2.2,
   (titleRun_backup c rows tt files jsons).2.2⟩

/-- Witness for the amended claim C2 at a concrete run that performs a
database write: the backup is indeed written during the run. -/
theorem C2_amended_witness :
    ∃ ev ∈ (importJsonsByTitle ( "DB")
      [⟨1, ( "T"), ( "t"), ⟨⟨ "T", "u", [], ""⟩, true⟩⟩] []
      [( ( "f"), ⟨⟨ "T", "u", [], ""⟩, false⟩)] [( "f")]).1,
      isBackup ev = true :=
  (C2_amended ( "DB") [⟨1, ( "T"), ( "t"), ⟨⟨ "T", "u", [], ""⟩, true⟩⟩] []
      [( ( "f"), ⟨⟨ "T", "u", [], ""⟩, false⟩)] [( "f")]).2.2.2 (by decide)

theorem uidStep_nImp (c : String) (dbMap : List (String × DashData))
    (st : RunState) (e : String × DashData) :
    st.nImp ≤ (uidStep c dbMap st e).2.nImp ∧
    (st.nImp < (uidStep c dbMap st e).2.nImp →
      (uidStep c dbMap st e).2.backedUp = true) ∧
    (st.backedUp = true → (uidStep c dbMap st e).2.backedUp = true) := by
  simp only [uidStep]
  split
  · split
    · exact ⟨Nat.le_succ _, fun _ => ensureBackup_snd c st.backedUp,
        fun _ => ensureBackup_snd c st.backedUp⟩
    · exact ⟨Nat.le_refl _, fun h => absurd h (Nat.lt_irrefl _), fun h => h⟩
  · exact ⟨Nat.le_succ _, fun _ => ensureBackup_snd c st.backedUp,
      fun _ => ensureBackup_snd c st.backedUp⟩

theorem uidLoop_nImp (c : String) (dbMap : List (String × DashData)) :
    ∀ (items : List (String × DashData)) (st : RunState),
    st.nImp ≤ (uidLoop c dbMap items st).2.nImp ∧
    (st.nImp < (uidLoop c dbMap items st).2.nImp →
      (uidLoop c dbMap items st).2.backedUp = true) ∧
    (st.backedUp = true → (uidLoop c dbMap items st).2.backedUp = true)
  | [], st =>
    ⟨Nat.le_refl _, fun h => absurd h (Nat.lt_irrefl _), fun h => h⟩
  | e :: rest, st => by
    obtain ⟨sa, sb, sc⟩ := uidStep_nImp c dbMap st e
    obtain ⟨ia, ib, ic⟩ := uidLoop_nImp c dbMap rest (uidStep c dbMap st e).2
    simp only [uidLoop]
    refine ⟨Nat.le_trans sa ia, ?_, fun h => ic (sc h)⟩
    intro h
    by_cases hstep : st.nImp < (uidStep c dbMap st e).2.nImp
    · exact ic (sb hstep)
    · exact ib (by omega)

theorem uidRun_nImp (c : String) (rows : DashTable) (tt : TagTable)
    (files : List (String × JBytes)) (jsons : List String) :
    1 ≤ (importJsonsByUID c rows tt files jsons).2.nImp →
    (importJsonsByUID c rows tt files jsons).2.backedUp = true := by
  rcases h1 : loadDbMap rows [] with k | dbMap
  · rw [uidRun_fatal_shape (Or.inl h1)]
    intro h
    simp [initState] at h
  · rcases h2 : loadJsonMap files dbMap jsons [] with k | jsonMap
    · rw [uidRun_fatal_shape (Or.inr ⟨dbMap, h1, h2⟩)]
      intro h
      simp [initState] at h
    · rw [uidRun_loop_shape h1 h2]
      obtain ⟨_, ib, _⟩ := uidLoop_nImp c dbMap jsonMap (initState rows tt)
      intro h
      exact ib (by simpa [initState] using h)

/-- Claim C3: across any single import run of either strategy at most one
full-database backup file is created, the backup count being exactly the
final state of the once-only flag; the first triggering change creates it
(an Identifier Matching run that imports at least one dashboard, or a run
of either strategy that performs a database write, has exactly one backup
event, later triggers being no-ops); and every backup event writes exactly
the database file bytes captured at the very start of the run, before any
mutation. -/
theorem C3_backup_once (c : String) (rows : DashTable) (tt : TagTable)
    (files : List (String × JBytes)) (jsons : List String) :
    (List.countP isBackup (importJsonsByUID c rows tt files jsons).1 ≤ 1 ∧
     List.countP isBackup (importJsonsByUID c rows tt files jsons).1
       = (if (importJsonsByUID c rows tt files jsons).2.backedUp
           then 1 else 0) ∧
     (∀ ev ∈ (importJsonsByUID c rows tt files jsons).1, isBackup ev = true →
        ev = Event.backup c) ∧
     (1 ≤ (importJsonsByUID c rows tt files jsons).2.nImp →
        List.countP isBackup (importJsonsByUID c rows tt files jsons).1
          = 1) ∧
     ((∃ ev ∈ (importJsonsByUID c rows tt files jsons).1,
          isDbWrite ev = true) →
        List.countP isBackup (importJsonsByUID c rows tt files jsons).1
          = 1)) ∧
    (List.countP isBackup (importJsonsByTitle c rows tt files jsons).1 ≤ 1 ∧
     List.countP isBackup (importJsonsByTitle c rows tt files jsons).1
       = (if (importJsonsByTitle c rows tt files jsons).2.backedUp
           then 1 else 0) ∧
     (∀ ev ∈ (importJsonsByTitle c rows tt files jsons).1,
        isBackup ev = true → ev = Event.backup c) ∧
     ((∃ ev ∈ (importJsonsByTitle c rows tt files jsons).1,
          isDbWrite ev = true) →
        List.countP isBackup (importJsonsByTitle c rows tt files jsons).1
          = 1)) := by
  obtain ⟨up, uc, uw⟩ := uidRun_backup c rows tt files jsons
  obtain ⟨tp, tc, tw⟩ := titleRun_backup c rows tt files jsons
  have hule : List.countP isBackup
      (importJsonsByUID c rows tt files jsons).1 ≤ 1 := by
    rw [uc]
    split <;> omega
  have htle : List.countP isBackup
      (importJsonsByTitle c rows tt files jsons).1 ≤ 1 := by
    rw [tc]
    split <;> omega
  have huw : (∃ ev ∈ (importJsonsByUID c rows tt files jsons).1,
      isDbWrite ev = true) →
      List.countP isBackup (importJsonsByUID c rows tt files jsons).1
        = 1 := by
    intro hw
    obtain ⟨ev, hm, hb⟩ := uw hw
    have hpos : 0 < List.countP isBackup
        (importJsonsByUID c rows tt files jsons).1 :=
      List.countP_pos_iff.2 ⟨ev, hm, hb⟩
    omega
  have htw : (∃ ev ∈ (importJsonsByTitle c rows tt files jsons).1,
      isDbWrite ev = true) →
      List.countP isBackup (importJsonsByTitle c rows tt files jsons).1
        = 1 := by
    intro hw
    obtain ⟨ev, hm, hb⟩ := tw hw
    have hpos : 0 < List.countP isBackup
        (importJsonsByTitle c rows tt files jsons).1 :=
      List.countP_pos_iff.2 ⟨ev, hm, hb⟩
    omega
  refine ⟨⟨hule, uc, up, ?_, huw⟩, ⟨htle, tc, tp, htw⟩⟩
  intro h
  rw [uc, if_pos (uidRun_nImp c rows tt files jsons h)]

/-- Witness for claim C3: an Identifier Matching run importing one changed
dashboard and a Title Matching run performing a row update each create
exactly one backup file. -/
theorem C3_witness :
    List.countP isBackup (importJsonsByUID ( "DB")
      [⟨1, ( "T"), ( "t"), ⟨⟨ "T", "u", [], ""⟩, true⟩⟩] []
      [( ( "f"), ⟨⟨ "T2", "u", [], ""⟩, false⟩)] [( "f")]).1 = 1 ∧
    List.countP isBackup (importJsonsByTitle ( "DB")
      [⟨1, ( "T"), ( "t"), ⟨⟨ "T", "u", [], ""⟩, true⟩⟩,
       ⟨2, ( "S"), ( "s"), ⟨⟨ "S", "v", [], ""⟩, true⟩⟩] []
      [( ( "f"), ⟨⟨ "T", "u", [], ""⟩, false⟩),
       ( ( "g"), ⟨⟨ "S", "v", [], ""⟩, false⟩)] [( "f"), ( "g")]).1 = 1 :=
  ⟨(C3_backup_once ( "DB")
      [⟨1, ( "T"), ( "t"), ⟨⟨ "T", "u", [], ""⟩, true⟩⟩] []
      [( ( "f"), ⟨⟨ "T2", "u", [], ""⟩, false⟩)]
      [( "f")]).1.2.2.2.1 (by decide),
   (C3_backup_once ( "DB")
      [⟨1, ( "T"), ( "t"), ⟨⟨ "T", "u", [], ""⟩, true⟩⟩,
       ⟨2, ( "S"), ( "s"), ⟨⟨ "S", "v", [], ""⟩, true⟩⟩] []
      [( ( "f"), ⟨⟨ "T", "u", [], ""⟩, false⟩),
       ( ( "g"), ⟨⟨ "S", "v", [], ""⟩, false⟩)]
      [( "f"), ( "g")]).2.2.2.2 (by decide)⟩

/-- Claim C5: in the per-document update step of Identifier Matching, when
the parsed title, the computed slug and the canonical content of the input
all equal those of the matched record, the dashboard row is not updated:
no row-update statement is issued and the dashboard table is unchanged,
even when the tag reconciliation pass reported a change. -/
theorem C5_no_row_update (c : String) (dbMap : List (String × DashData))
    (st : RunState) (e : String × DashData)
    (h1 : ((mget dbMap e.1).getD default).dash.title = e.2.dash.title)
    (h2 : ((mget dbMap e.1).getD default).slug = e.2.slug)
    (h3 : ((mget dbMap e.1).getD default).data = e.2.data) :
    (∀ ev ∈ (uidStep c dbMap st e).1, ∀ i t sl d,
        ev ≠ Event.execUpdate i t sl d) ∧
    (uidStep c dbMap st e).2.dash = st.dash := by
  simp only [uidStep, if_pos (And.intro h1 (And.intro h2 h3))]
  split
  · refine ⟨?_, rfl⟩
    intro ev hm i t sl d
    rcases List.mem_append.1 hm with hm | hm
    · exact updateTags_event_not_exec hm i t sl d
    · rw [ensureBackup_mem hm]
      exact fun hc => Event.noConfusion hc
  · exact ⟨fun ev hm => updateTags_event_not_exec hm, rfl⟩

/-- Witness for claim C5 at a concrete step whose tag reconciliation does
report a change while title, slug and content are unchanged. -/
theorem C5_witness :
    (∀ ev ∈ (uidStep ( "DB")
        [( ( "u"), ⟨⟨ "T", "u", [ "x"]⟩, 1, ( "T"), ( "t"),
            ⟨⟨ "T", "u", [ "x"], ""⟩, true⟩, ( "fn")⟩)]
        (initState [] [(1, ( "x"))])
        ( ( "u"), ⟨⟨ "T", "u", [ "y"]⟩, 1, ( "T"), ( "t"),
            ⟨⟨ "T", "u", [ "x"], ""⟩, true⟩, ( "f")⟩)).1, ∀ i t sl d,
        ev ≠ Event.execUpdate i t sl d) ∧
    (uidStep ( "DB")
        [( ( "u"), ⟨⟨ "T", "u", [ "x"]⟩, 1, ( "T"), ( "t"),
            ⟨⟨ "T", "u", [ "x"], ""⟩, true⟩, ( "fn")⟩)]
        (initState [] [(1, ( "x"))])
        ( ( "u"), ⟨⟨ "T", "u", [ "y"]⟩, 1, ( "T"), ( "t"),
            ⟨⟨ "T", "u", [ "x"], ""⟩, true⟩, ( "f")⟩)).2.dash
      = (initState [] [(1, ( "x"))]).dash :=
  C5_no_row_update ( "DB")
    [( ( "u"), ⟨⟨ "T", "u", [ "x"]⟩, 1, ( "T"), ( "t"),
        ⟨⟨ "T", "u", [ "x"], ""⟩, true⟩, ( "fn")⟩)]
    (initState [] [(1, ( "x"))])
    ( ( "u"), ⟨⟨ "T", "u", [ "y"]⟩, 1, ( "T"), ( "t"),
        ⟨⟨ "T", "u", [ "x"], ""⟩, true⟩, ( "f")⟩)
    (by decide) (by decide) (by decide)

/-- Claim C8: in Title Matching, an item whose title-matched record embeds a
uid different from the uid of the input document only logs the mismatch and
is skipped: the run state (both tables, the backup flag) is unchanged by the
item, no write or sidecar or backup event is emitted for it, and the loop
continues with the remaining items exactly as if started on them. -/
theorem C8_soft_skip (c : String) (files : List (String × JBytes))
    (st : RunState) (jdata : String) (rest : List String) (bytes : JBytes)
    (row : DBRow)
    (ha : (splitSemi jdata).length = 1 ∨ (splitSemi jdata).length = 3)
    (hr : readFile files ((splitSemi jdata).headD ( "")) = some bytes)
    (hl : lastTitleMatch st.dash
      (overrideTitle (splitSemi jdata) (Unmarshal bytes)) = some row)
    (hu : (Unmarshal bytes).uid ≠ (Unmarshal row.data).uid) :
    titleLoop c files (jdata :: rest) st
      = (Event.logSkip (Unmarshal bytes).uid (Unmarshal row.data).uid
          :: (titleLoop c files rest st).1, (titleLoop c files rest st).2) := by
  simp only [titleLoop, titleStep_skip ha hr hl hu]
  simp

/-- Witness for claim C8: a concrete two-item run in which the first item is
skipped on a uid mismatch and the second item is still processed. -/
theorem C8_witness :
    titleLoop ( "DB")
        [( ( "f"), ⟨⟨ "T", "w", [], ""⟩, false⟩),
         ( ( "g"), ⟨⟨ "S", "v", [], ""⟩, false⟩)]
        [( "f"), ( "g")]
        (initState
          [⟨1, ( "T"), ( "t"), ⟨⟨ "T", "u", [], ""⟩, true⟩⟩,
           ⟨2, ( "S"), ( "s"), ⟨⟨ "S", "v", [], ""⟩, true⟩⟩] [])
      = (Event.logSkip ( "w") ( "u")
          :: (titleLoop ( "DB")
            [( ( "f"), ⟨⟨ "T", "w", [], ""⟩, false⟩),
             ( ( "g"), ⟨⟨ "S", "v", [], ""⟩, false⟩)]
            [( "g")]
            (initState
              [⟨1, ( "T"), ( "t"), ⟨⟨ "T", "u", [], ""⟩, true⟩⟩,
               ⟨2, ( "S"), ( "s"), ⟨⟨ "S", "v", [], ""⟩, true⟩⟩] [])).1,
         (titleLoop ( "DB")
            [( ( "f"), ⟨⟨ "T", "w", [], ""⟩, false⟩),
             ( ( "g"), ⟨⟨ "S", "v", [], ""⟩, false⟩)]
            [( "g")]
            (initState
              [⟨1, ( "T"), ( "t"), ⟨⟨ "T", "u", [], ""⟩, true⟩⟩,
               ⟨2, ( "S"), ( "s"), ⟨⟨ "S", "v", [], ""⟩, true⟩⟩] [])).2) :=
  C8_soft_skip ( "DB")
    [( ( "f"), ⟨⟨ "T", "w", [], ""⟩, false⟩),
     ( ( "g"), ⟨⟨ "S", "v", [], ""⟩, false⟩)]
    (initState
      [⟨1, ( "T"), ( "t"), ⟨⟨ "T", "u", [], ""⟩, true⟩⟩,
       ⟨2, ( "S"), ( "s"), ⟨⟨ "S", "v", [], ""⟩, true⟩⟩] [])
    ( "f") [( "g")] (⟨⟨ "T", "w", [], ""⟩, false⟩) 
    (⟨1, ( "T"), ( "t"), ⟨⟨ "T", "u", [], ""⟩, true⟩⟩)
    (by decide) (by decide) (by decide) (by decide)

/-- Claim C9, counterexample: a Title Matching run on an input whose bytes
are not in canonical form stores exactly those raw bytes in the data column,
which differ from the canonical pretty-printed form of the input, so the
stored bytes do not equal the canonicalisation of the input document. -/
theorem C9_counterexample :
    (importJsonsByTitle ( "DB")
        [⟨1, ( "T"), ( "t"), ⟨⟨ "T", "u", [], ""⟩, true⟩⟩] []
        [( ( "f"), ⟨⟨ "T", "u", [], ""⟩, false⟩)] [( "f")]).2.dash
      = [⟨1, ( "T"), ( "t"), ⟨⟨ "T", "u", [], ""⟩, false⟩⟩] ∧
    (⟨⟨ "T", "u", [], ""⟩, false⟩ : JBytes)
      ≠ PrettyPrintJSON ⟨⟨ "T", "u", [], ""⟩, false⟩ := by
  decide

/-- Claim C9, amended: on an identifier match, Title Matching writes the raw
input file bytes, not their canonical pretty-printed form, to the data
column of the matched row (both in the issued update statement and in the
resulting table); the stored bytes therefore equal the canonical form only
when the input file was already canonical. -/
theorem C9_amended (c : String) (files : List (String × JBytes))
    (st : RunState) (jdata : String) (bytes : JBytes) (row : DBRow)
    (ha : (splitSemi jdata).length = 1 ∨ (splitSemi jdata).length = 3)
    (hr : readFile files ((splitSemi jdata).headD ( "")) = some bytes)
    (hl : lastTitleMatch st.dash
      (overrideTitle (splitSemi jdata) (Unmarshal bytes)) = some row)
    (hu : (Unmarshal bytes).uid = (Unmarshal row.data).uid) :
    (titleStep c files st jdata).1.head?
      = some (Event.execUpdate row.id (Unmarshal bytes).title
          (overrideSlug (splitSemi jdata) row.slug) bytes) ∧
    (titleStep c files st jdata).2.1.dash
      = updDash st.dash row.id (Unmarshal bytes).title
          (overrideSlug (splitSemi jdata) row.slug) bytes := by
  rw [titleStep_update ha hr hl hu]
  exact ⟨rfl, rfl⟩

/-- Witness for the amended claim C9 at a concrete non-canonical input: the
row update carries the raw bytes. -/
theorem C9_amended_witness :
    (titleStep ( "DB") [( ( "f"), ⟨⟨ "T", "u", [], ""⟩, false⟩)]
        (initState [⟨1, ( "T"), ( "t"), ⟨⟨ "T", "u", [], ""⟩, true⟩⟩] [])
        ( "f")).1.head?
      = some (Event.execUpdate 1 ( "T") ( "t") ⟨⟨ "T", "u", [], ""⟩, false⟩) ∧
    (titleStep ( "DB") [( ( "f"), ⟨⟨ "T", "u", [], ""⟩, false⟩)]
        (initState [⟨1, ( "T"), ( "t"), ⟨⟨ "T", "u", [], ""⟩, true⟩⟩] [])
        ( "f")).2.1.dash
      = updDash (initState [⟨1, ( "T"), ( "t"),
            ⟨⟨ "T", "u", [], ""⟩, true⟩⟩] []).dash 1 ( "T") ( "t")
          ⟨⟨ "T", "u", [], ""⟩, false⟩ :=
  C9_amended ( "DB") [( ( "f"), ⟨⟨ "T", "u", [], ""⟩, false⟩)]
    (initState [⟨1, ( "T"), ( "t"), ⟨⟨ "T", "u", [], ""⟩, true⟩⟩] [])
    ( "f") (⟨⟨ "T", "u", [], ""⟩, false⟩)
    (⟨1, ( "T"), ( "t"), ⟨⟨ "T", "u", [], ""⟩, true⟩⟩)
    (by decide) (by decide) (by decide) (by decide)

theorem mget_mput_self {α : Type} (m : List (String × α)) (k : String)
    (v : α) : mget (mput m k v) k = some v := by
  unfold mget mput
  rw [List.find?_append]
  have h1 : List.find? (fun p => decide (p.1 = k))
      (m.filter (fun p => decide (p.1 ≠ k))) = none := by
    rw [List.find?_eq_none]
    intro x hx
    have := (List.mem_filter.1 hx).2
    simp at this ⊢
    exact this
  rw [h1]
  simp

theorem mget_mput_ne {α : Type} (m : List (String × α)) {k k2 : String}
    (v : α) (h : k2 ≠ k) : mget (mput m k v) k2 = mget m k2 := by
  unfold mget mput
  rw [List.find?_append]
  have hlast : List.find? (fun p => decide (p.1 = k2)) [(k, v)] = none := by
    simp
    exact fun hc => h hc.symm
  have hfilter : List.find? (fun p => decide (p.1 = k2))
      (m.filter (fun p => decide (p.1 ≠ k)))
      = List.find? (fun p => decide (p.1 = k2)) m := by
    induction m with
    | nil => rfl
    | cons p rest ih =>
      rw [List.filter_cons]
      by_cases hp2 : p.1 = k2
      · have hq : (decide (p.1 = k2)) = true := by simp [hp2]
        have hpk : (decide (p.1 ≠ k)) = true := by
          simp only [decide_eq_true_eq]
          rw [hp2]
          exact h
        rw [if_pos hpk, List.find?_cons_of_pos (p := fun q : String × α => decide (q.1 = k2)) _ hq,
          List.find?_cons_of_pos (p := fun q : String × α => decide (q.1 = k2)) _ hq]
      · have hq : ¬ ((decide (p.1 = k2)) = true) := by simp [hp2]
        by_cases hpk : p.1 = k
        · have hd : ¬ ((decide (p.1 ≠ k)) = true) := by simp [hpk]
          rw [if_neg hd, List.find?_cons_of_neg (p := fun q : String × α => decide (q.1 = k2)) _ hq]
          exact ih
        · have hd : (decide (p.1 ≠ k)) = true := by simp [hpk]
          rw [if_pos hd, List.find?_cons_of_neg (p := fun q : String × α => decide (q.1 = k2)) _ hq,
            List.find?_cons_of_neg (p := fun q : String × α => decide (q.1 = k2)) _ hq]
          exact ih
  rw [hlast, hfilter]
  simp

theorem mget_mput_isSome {α : Type} (m : List (String × α)) (k k2 : String)
    (v : α) :
    (mget (mput m k v) k2).isSome ↔ (k2 = k ∨ (mget m k2).isSome) := by
  by_cases h : k2 = k
  · subst h
    simp [mget_mput_self]
  · simp [mget_mput_ne m v h, h]

/-- The uid under which an input file enters the json map: the uid parsed
from its bytes. -/
def inputUid (files : List (String × JBytes)) (j : String) : String :=
  (Unmarshal ((readFile files j).getD default)).uid

/-- The uid embedded in the data column of a dashboard row. -/
def rowUid (row : DBRow) : String := (Unmarshal row.data).uid

theorem loadJsonFile_ok {files : List (String × JBytes)}
    {dbMap m m₂ : List (String × DashData)} {j : String}
    (h : loadJsonFile files dbMap m j = Except.ok m₂) :
    ∃ bytes, readFile files j = some bytes ∧
      (mget dbMap (Unmarshal bytes).uid).isSome ∧
      mget m (Unmarshal bytes).uid = none ∧
      ∃ dd, m₂ = mput m (Unmarshal bytes).uid dd := by
  unfold loadJsonFile at h
  rcases hr : readFile files j with _ | bytes
  · rw [hr] at h
    exact absurd h (by simp)
  · rw [hr] at h
    dsimp only at h
    rcases hdb : mget dbMap (Unmarshal bytes).uid with _ | dbDash
    · rw [hdb] at h
      exact absurd h (by simp)
    · rw [hdb] at h
      dsimp only at h
      rcases hjm : mget m (Unmarshal bytes).uid with _ | old
      · rw [hjm] at h
        dsimp only at h
        refine ⟨bytes, rfl, by simp [hdb], hjm, ?_⟩
        exact ⟨_, (Except.ok.inj h).symm⟩
      · rw [hjm] at h
        exact absurd h (by simp)

theorem loadJsonMap_ok_nodup {files : List (String × JBytes)}
    {dbMap : List (String × DashData)} :
    ∀ {jsons : List String} {m r : List (String × DashData)},
    loadJsonMap files dbMap jsons m = Except.ok r →
    (jsons.map (inputUid files)).Nodup ∧
      ∀ u ∈ jsons.map (inputUid files), mget m u = none
  | [], _, _, _ => ⟨List.nodup_nil, by simp⟩
  | j :: rest, m, r, h => by
    simp only [loadJsonMap] at h
    rcases hf : loadJsonFile files dbMap m j with k | m₂
    · rw [hf] at h
      exact absurd h (by simp)
    · rw [hf] at h
      obtain ⟨bytes, hr, _, hnone, dd, hm₂⟩ := loadJsonFile_ok hf
      obtain ⟨ihn, ihm⟩ := loadJsonMap_ok_nodup h
      have huid : inputUid files j = (Unmarshal bytes).uid := by
        simp [inputUid, hr]
      have hnotin : inputUid files j ∉ rest.map (inputUid files) := by
        intro hmem
        have h3 := ihm _ hmem
        rw [huid, hm₂, mget_mput_self] at h3
        exact Option.noConfusion h3
      constructor
      · rw [List.map_cons]
        exact List.nodup_cons.2 ⟨hnotin, ihn⟩
      · intro u hu
        rw [List.map_cons, List.mem_cons] at hu
        rcases hu with hu | hu
        · rw [hu, huid]
          exact hnone
        · have h2 := ihm u hu
          have hne : u ≠ (Unmarshal bytes).uid := by
            intro hc
            rw [← huid] at hc
            rw [hc] at hu
            exact hnotin hu
          rw [hm₂, mget_mput_ne m dd hne] at h2
          exact h2

/-- Claim C6: if two input documents of an Identifier Matching run carry
the same uid, the run terminates fatally with that single fatal event as
its whole trace and the run state untouched: in particular no dashboard
row update, no tag insert and no tag delete has been performed. -/
theorem C6_dup_uid_fatal (c : String) (rows : DashTable) (tt : TagTable)
    (files : List (String × JBytes)) (jsons : List String)
    (h : ¬ (jsons.map (inputUid files)).Nodup) :
    (∃ k, importJsonsByUID c rows tt files jsons
        = ([Event.fatal k], initState rows tt)) ∧
    ∀ ev ∈ (importJsonsByUID c rows tt files jsons).1,
      isDbWrite ev = false := by
  rcases h1 : loadDbMap rows [] with k | dbMap
  · rw [uidRun_fatal_shape (Or.inl h1)]
    exact ⟨⟨k, rfl⟩, by intro ev hm; simp at hm; simp [hm, isDbWrite]⟩
  · rcases h2 : loadJsonMap files dbMap jsons [] with k | jsonMap
    · rw [uidRun_fatal_shape (Or.inr ⟨dbMap, h1, h2⟩)]
      exact ⟨⟨k, rfl⟩, by intro ev hm; simp at hm; simp [hm, isDbWrite]⟩
    · exact absurd (loadJsonMap_ok_nodup h2).1 h

/-- Witness for claim C6: a run over two files carrying the same uid ends
in exactly one fatal event and performs no database write. -/
theorem C6_witness :
    (∃ k, importJsonsByUID ( "DB")
        [⟨1, ( "T"), ( "t"), ⟨⟨ "T", "u", [], ""⟩, true⟩⟩] []
        [( ( "f"), ⟨⟨ "T", "u", [], ""⟩, false⟩),
         ( ( "g"), ⟨⟨ "T2", "u", [], ""⟩, false⟩)] [( "f"), ( "g")]
        = ([Event.fatal k],
           initState [⟨1, ( "T"), ( "t"), ⟨⟨ "T", "u", [], ""⟩, true⟩⟩] [])) ∧
    ∀ ev ∈ (importJsonsByUID ( "DB")
        [⟨1, ( "T"), ( "t"), ⟨⟨ "T", "u", [], ""⟩, true⟩⟩] []
        [( ( "f"), ⟨⟨ "T", "u", [], ""⟩, false⟩),
         ( ( "g"), ⟨⟨ "T2", "u", [], ""⟩, false⟩)] [( "f"), ( "g")]).1,
      isDbWrite ev = false :=
  C6_dup_uid_fatal ( "DB")
    [⟨1, ( "T"), ( "t"), ⟨⟨ "T", "u", [], ""⟩, true⟩⟩] []
    [( ( "f"), ⟨⟨ "T", "u", [], ""⟩, false⟩),
     ( ( "g"), ⟨⟨ "T2", "u", [], ""⟩, false⟩)] [( "f"), ( "g")]
    (by decide)

theorem loadDbRow_ok {m m₂ : List (String × DashData)} {row : DBRow}
    (h : loadDbRow m row = Except.ok m₂) :
    ∃ dd, m₂ = mput m (Unmarshal row.data).uid dd := by
  simp only [loadDbRow] at h
  split at h
  · exact absurd h (by simp)
  · exact ⟨_, (Except.ok.inj h).symm⟩

theorem loadDbMap_keys : ∀ {rows : DashTable}
    {m r : List (String × DashData)}, loadDbMap rows m = Except.ok r →
    ∀ u, (mget r u).isSome ↔ (u ∈ rows.map rowUid ∨ (mget m u).isSome)
  | [], m, r, h, u => by
    simp only [loadDbMap] at h
    rw [Except.ok.inj h]
    simp
  | row :: rest, m, r, h, u => by
    simp only [loadDbMap] at h
    rcases hf : loadDbRow m row with k | m₂
    · rw [hf] at h
      exact absurd h (by simp)
    · rw [hf] at h
      dsimp only at h
      obtain ⟨dd, hm₂⟩ := loadDbRow_ok hf
      have ih := loadDbMap_keys h u
      rw [ih, hm₂, mget_mput_isSome, List.map_cons, List.mem_cons]
      simp only [rowUid] at ih ⊢
      tauto

theorem loadJsonMap_fail {files : List (String × JBytes)}
    {dbMap : List (String × DashData)} : ∀ {jsons : List String},
    (∃ j ∈ jsons, ∃ bytes, readFile files j = some bytes ∧
      mget dbMap (Unmarshal bytes).uid = none) →
    ∀ m, ∃ k, loadJsonMap files dbMap jsons m = Except.error k
  | [], h, _ => absurd h (by simp)
  | j :: rest, h, m => by
    simp only [loadJsonMap]
    rcases hf : loadJsonFile files dbMap m j with k | m₂
    · exact ⟨k, rfl⟩
    · obtain ⟨bytes₀, hr₀, hsome, _, _, _⟩ := loadJsonFile_ok hf
      rcases h with ⟨j2, hj2, bytes, hr, hnone⟩
      rw [List.mem_cons] at hj2
      rcases hj2 with hj2 | hj2
      · subst hj2
        rw [hr₀] at hr
        rw [Option.some.inj hr] at hsome
        rw [hnone] at hsome
        exact absurd hsome (by simp)
      · exact loadJsonMap_fail ⟨j2, hj2, bytes, hr, hnone⟩ m₂

/-- Claim C7: an Identifier Matching run given an input document whose uid
matches no database record terminates fatally with that single fatal event
as its whole trace and the run state untouched: no database mutation, no
sidecar write and no backup file write has happened. -/
theorem C7_unknown_uid_fatal (c : String) (rows : DashTable) (tt : TagTable)
    (files : List (String × JBytes)) (jsons : List String)
    (h : ∃ j ∈ jsons, ∃ bytes, readFile files j = some bytes ∧
      (Unmarshal bytes).uid ∉ rows.map rowUid) :
    (∃ k, importJsonsByUID c rows tt files jsons
        = ([Event.fatal k], initState rows tt)) ∧
    ∀ ev ∈ (importJsonsByUID c rows tt files jsons).1,
      isDbWrite ev = false ∧ isSidecar ev = false ∧ isBackup ev = false := by
  have hshape : ∃ k, importJsonsByUID c rows tt files jsons
      = ([Event.fatal k], initState rows tt) := by
    rcases h1 : loadDbMap rows [] with k | dbMap
    · exact ⟨k, uidRun_fatal_shape (Or.inl h1)⟩
    · obtain ⟨j, hj, bytes, hr, hnotin⟩ := h
      have hnone : mget dbMap (Unmarshal bytes).uid = none := by
        have hkeys := loadDbMap_keys h1 (Unmarshal bytes).uid
        rw [← Option.not_isSome_iff_eq_none]
        intro hs
        rcases hkeys.1 hs with h2 | h2
        · exact hnotin h2
        · simp [mget, List.find?] at h2
      obtain ⟨k, h2⟩ :=
        loadJsonMap_fail ⟨j, hj, bytes, hr, hnone⟩ ([] : List (String × DashData))
      exact ⟨k, uidRun_fatal_shape (Or.inr ⟨dbMap, h1, h2⟩)⟩
  obtain ⟨k, hk⟩ := hshape
  refine ⟨⟨k, hk⟩, ?_⟩
  intro ev hm
  rw [hk] at hm
  simp at hm
  simp [hm, isDbWrite, isSidecar, isBackup]

/-- Witness for claim C7: a run over a file whose uid is not embedded in any
dashboard row ends in exactly one fatal event with no effect. -/
theorem C7_witness :
    (∃ k, importJsonsByUID ( "DB")
        [⟨1, ( "T"), ( "t"), ⟨⟨ "T", "u", [], ""⟩, true⟩⟩] []
        [( ( "f"), ⟨⟨ "T", "w", [], ""⟩, false⟩)] [( "f")]
        = ([Event.fatal k],
           initState [⟨1, ( "T"), ( "t"), ⟨⟨ "T", "u", [], ""⟩, true⟩⟩] [])) ∧
    ∀ ev ∈ (importJsonsByUID ( "DB")
        [⟨1, ( "T"), ( "t"), ⟨⟨ "T", "u", [], ""⟩, true⟩⟩] []
        [( ( "f"), ⟨⟨ "T", "w", [], ""⟩, false⟩)] [( "f")]).1,
      isDbWrite ev = false ∧ isSidecar ev = false ∧ isBackup ev = false :=
  C7_unknown_uid_fatal ( "DB")
    [⟨1, ( "T"), ( "t"), ⟨⟨ "T", "u", [], ""⟩, true⟩⟩] []
    [( ( "f"), ⟨⟨ "T", "w", [], ""⟩, false⟩)] [( "f")]
    ⟨( "f"), by decide, ⟨⟨ "T", "w", [], ""⟩, false⟩, by decide, by decide⟩

theorem sortStr_eq_of_perm {l₁ l₂ : List String} (h : l₁.Perm l₂) :
    List.insertionSort strLe l₁ = List.insertionSort strLe l₂ :=
  List.eq_of_perm_of_sorted
    (((List.perm_insertionSort strLe l₁).trans h).trans
      (List.perm_insertionSort strLe l₂).symm)
    (List.sorted_insertionSort strLe l₁) (List.sorted_insertionSort strLe l₂)

theorem updateTags_of_perm {did : Nat} {jsonTags : List String}
    {tt : TagTable} (h : jsonTags.Perm (tagsOf tt did)) :
    updateTags did jsonTags tt = ([], tt, false) := by
  have heq : List.insertionSort strLe jsonTags = dbTagsQuery tt did :=
    sortStr_eq_of_perm h
  simp only [updateTags]
  rw [heq]
  simp

/-- Claim C4, counterexample: on the pair of tag lists that are equal as
sets up to letter case but not on the nose, updateTags does not report "no
change": it returns true, inserts the JSON spelling and deletes the
database spelling. -/
theorem C4_counterexample :
    updateTags 1 [( "Infra")] [(1, ( "infra"))]
      = ([Event.tagInsert 1 ( "Infra"), Event.tagDelete 1 ( "infra")],
         [(1, ( "Infra"))], true) := by
  decide

/-- Claim C4, amended: tag-set equality in updateTags is order-insensitive
but case-sensitive: whenever the JSON tag list is a permutation of the
database tag rows of the dashboard under exact string equality, updateTags
reports no change (returns false) and issues no insert, no delete and no
table change; lists that agree only up to letter case are treated as
different. -/
theorem C4_amended (did : Nat) (jsonTags : List String) (tt : TagTable)
    (h : jsonTags.Perm (tagsOf tt did)) :
    updateTags did jsonTags tt = ([], tt, false) :=
  updateTags_of_perm h

/-- Witness for the amended claim C4: a reordered but textually identical
tag list yields no operations. -/
theorem C4_witness :
    updateTags 1 [( "b"), ( "a")] [(1, ( "a")), (1, ( "b"))]
      = ([], [(1, ( "a")), (1, ( "b"))], false) :=
  C4_amended 1 [( "b"), ( "a")] [(1, ( "a")), (1, ( "b"))] (by decide)

theorem tagSync_noop {did : Nat} {jin din : List String} :
    ∀ (u : List String) (tt : TagTable),
    (∀ t ∈ u, (t ∈ jin ↔ t ∈ din)) → tagSync did jin din u tt = ([], tt)
  | [], _, _ => rfl
  | t :: rest, tt, h => by
    have ht := h t (List.mem_cons_self t rest)
    simp only [tagSync]
    rw [if_neg (by tauto), if_neg (by tauto)]
    exact tagSync_noop rest tt (fun x hx => h x (List.mem_cons_of_mem t hx))

/-- Claim C10: whenever the JSON tag list and the database tag rows of the
dashboard are equal as sets but their sorted comma-joined strings differ
(for example because the JSON list repeats a tag), updateTags returns true,
triggering the caller backup, while issuing zero inserts, zero deletes and
leaving the tag table unchanged. -/
theorem C10_changed_no_ops (did : Nat) (jsonTags : List String)
    (tt : TagTable) (h1 : jsonTags.toFinset = (tagsOf tt did).toFinset)
    (h2 : String.intercalate ( "," : String) (List.insertionSort strLe jsonTags)
        ≠ String.intercalate ( "," : String) (dbTagsQuery tt did)) :
    updateTags did jsonTags tt = ([], tt, true) := by
  have hset : ∀ t : String, t ∈ jsonTags ↔ t ∈ tagsOf tt did := by
    intro t
    rw [← List.mem_toFinset, h1, List.mem_toFinset]
  have hmem : ∀ t ∈ (List.insertionSort strLe jsonTags
      ++ dbTagsQuery tt did).dedup,
      (t ∈ List.insertionSort strLe jsonTags ↔ t ∈ dbTagsQuery tt did) := by
    intro t _
    rw [(List.perm_insertionSort strLe jsonTags).mem_iff, dbTagsQuery,
      (List.perm_insertionSort strLe (tagsOf tt did)).mem_iff]
    exact hset t
  simp only [updateTags]
  rw [if_neg h2, tagSync_noop _ tt hmem]

/-- Witness for claim C10: JSON tags with a duplicate of the single stored
tag report a change with no tag operation. -/
theorem C10_witness :
    updateTags 1 [( "a"), ( "a")] [(1, ( "a"))]
      = ([], [(1, ( "a"))], true) :=
  C10_changed_no_ops 1 [( "a"), ( "a")] [(1, ( "a"))] (by decide) (by decide)

theorem intercalate_go_append (s : String) :
    ∀ (l : List String) (acc₁ acc₂ : String),
    String.intercalate.go (acc₁ ++ acc₂) s l
      = acc₁ ++ String.intercalate.go acc₂ s l
  | [], _, _ => rfl
  | a :: as, acc₁, acc₂ => by
    show String.intercalate.go (acc₁ ++ acc₂ ++ s ++ a) s as
      = acc₁ ++ String.intercalate.go (acc₂ ++ s ++ a) s as
    rw [String.append_assoc, String.append_assoc, ← String.append_assoc acc₂,
      intercalate_go_append s as acc₁ (acc₂ ++ s ++ a),
      String.append_assoc acc₂]

theorem intercalate_cons₂ (s a b : String) (l : List String) :
    String.intercalate s (a :: b :: l)
      = a ++ s ++ String.intercalate s (b :: l) := by
  show String.intercalate.go (a ++ s ++ b) s l
    = a ++ s ++ String.intercalate.go b s l
  rw [← intercalate_go_append s l (a ++ s) b]

theorem intercalate_single (s a : String) :
    String.intercalate s [a] = a := rfl

/-- A tag string on which the comma-join comparison of updateTags is
faithful: nonempty and comma-free. -/
def goodTag (t : String) : Prop :=
  t ≠ ( "" : String) ∧ ¬ ((',' : Char) ∈ t.data)

instance (t : String) : Decidable (goodTag t) :=
  inferInstanceAs (Decidable (_ ∧ _))

theorem charSplit : ∀ {a : List Char} {r₁ : List Char} {b : List Char}
    {r₂ : List Char}, ¬ ((',' : Char) ∈ a) → ¬ ((',' : Char) ∈ b) →
    a ++ (',' : Char) :: r₁ = b ++ (',' : Char) :: r₂ → a = b ∧ r₁ = r₂
  | [], r₁, [], r₂, _, _, h => ⟨rfl, (List.cons.inj h).2⟩
  | [], r₁, c :: bs, r₂, _, hb, h => by
    rw [List.nil_append, List.cons_append] at h
    exact absurd (List.mem_cons.2 (Or.inl (List.cons.inj h).1)) hb
  | c :: as, r₁, [], r₂, ha, _, h => by
    rw [List.nil_append, List.cons_append] at h
    exact absurd (List.mem_cons.2 (Or.inl (List.cons.inj h).1.symm)) ha
  | c :: as, r₁, c2 :: bs, r₂, ha, hb, h => by
    rw [List.cons_append, List.cons_append] at h
    obtain ⟨h1, h2⟩ := List.cons.inj h
    obtain ⟨h3, h4⟩ := charSplit (fun hm => ha (List.mem_cons_of_mem c hm))
      (fun hm => hb (List.mem_cons_of_mem c2 hm)) h2
    exact ⟨by rw [h1, h3], h4⟩

theorem commaData : (( "," : String)).data = [(',' : Char)] := rfl

theorem emptyData : (( "" : String)).data = ([] : List Char) := rfl

theorem intercalate_cons₂_data (a b : String) (l : List String) :
    (String.intercalate ( "," : String) (a :: b :: l)).data
      = a.data ++ (',' : Char)
          :: (String.intercalate ( "," : String) (b :: l)).data := by
  rw [intercalate_cons₂]
  simp [String.data_append, commaData]

theorem intercalate_comma_inj :
    ∀ (l₁ l₂ : List String), (∀ x ∈ l₁, goodTag x) → (∀ x ∈ l₂, goodTag x) →
    String.intercalate ( "," : String) l₁
      = String.intercalate ( "," : String) l₂ → l₁ = l₂
  | [], [], _, _, _ => rfl
  | [], b :: bs, _, h₂, h => by
    exfalso
    have hb := h₂ b (List.mem_cons_self b bs)
    cases bs with
    | nil =>
      rw [intercalate_single] at h
      exact hb.1 h.symm
    | cons c cs =>
      have hd := congrArg String.data h
      rw [intercalate_cons₂_data] at hd
      have hd2 : ([] : List Char) = b.data ++ (',' : Char)
          :: (String.intercalate ( "," : String) (c :: cs)).data := hd
      exact List.noConfusion (List.append_eq_nil.1 hd2.symm).2
  | a :: as, [], h₁, _, h => by
    exfalso
    have ha := h₁ a (List.mem_cons_self a as)
    cases as with
    | nil =>
      rw [intercalate_single] at h
      exact ha.1 h
    | cons c cs =>
      have hd := congrArg String.data h
      rw [intercalate_cons₂_data] at hd
      have hd2 : a.data ++ (',' : Char)
          :: (String.intercalate ( "," : String) (c :: cs)).data
          = ([] : List Char) := hd
      exact List.noConfusion (List.append_eq_nil.1 hd2).2
  | a :: as, b :: bs, h₁, h₂, h => by
    have ha := h₁ a (List.mem_cons_self a as)
    have hb := h₂ b (List.mem_cons_self b bs)
    cases as with
    | nil =>
      cases bs with
      | nil =>
        rw [intercalate_single, intercalate_single] at h
        rw [h]
      | cons c cs =>
        exfalso
        have hd := congrArg String.data h
        rw [intercalate_cons₂_data, intercalate_single] at hd
        refine ha.2 ?_
        rw [hd]
        exact List.mem_append.2 (Or.inr (List.mem_cons_self (',' : Char) _))
    | cons c cs =>
      cases bs with
      | nil =>
        exfalso
        have hd := congrArg String.data h
        rw [intercalate_cons₂_data, intercalate_single] at hd
        refine hb.2 ?_
        rw [← hd]
        exact List.mem_append.2 (Or.inr (List.mem_cons_self (',' : Char) _))
      | cons d ds =>
        have hd := congrArg String.data h
        rw [intercalate_cons₂_data, intercalate_cons₂_data] at hd
        obtain ⟨hab, hrest⟩ := charSplit ha.2 hb.2 hd
        have htail : String.intercalate ( "," : String) (c :: cs)
            = String.intercalate ( "," : String) (d :: ds) :=
          String.ext hrest
        have := intercalate_comma_inj (c :: cs) (d :: ds)
          (fun x hx => h₁ x (List.mem_cons_of_mem a hx))
          (fun x hx => h₂ x (List.mem_cons_of_mem b hx)) htail
        rw [String.ext hab, this]

/-- The operation the sync loop of updateTags performs for one tag of the
union: an insert for a JSON-only tag, a delete for a database-only tag,
nothing for a shared tag. -/
def tagOpFor (did : Nat) (jin din : List String) (t : String) :
    Option Event :=
  if t ∈ jin ∧ t ∉ din then some (Event.tagInsert did t)
  else if t ∉ jin ∧ t ∈ din then some (Event.tagDelete did t)
  else none

theorem tagSync_fst (did : Nat) (jin din : List String) :
    ∀ (u : List String) (tt : TagTable),
    (tagSync did jin din u tt).1 = u.filterMap (tagOpFor did jin din)
  | [], _ => rfl
  | t :: rest, tt => by
    simp only [tagSync, List.filterMap_cons, tagOpFor]
    by_cases h1 : t ∈ jin ∧ t ∉ din
    · rw [if_pos h1, if_pos h1]
      simp [tagSync_fst did jin din rest]
    · rw [if_neg h1, if_neg h1]
      by_cases h2 : t ∉ jin ∧ t ∈ din
      · rw [if_pos h2, if_pos h2]
        simp [tagSync_fst did jin din rest]
      · rw [if_neg h2, if_neg h2]
        exact tagSync_fst did jin din rest _

theorem tagOpFor_eq_insert {did : Nat} {jin din : List String}
    {a t : String} :
    tagOpFor did jin din a = some (Event.tagInsert did t) ↔
      (a = t ∧ a ∈ jin ∧ a ∉ din) := by
  unfold tagOpFor
  by_cases h1 : a ∈ jin ∧ a ∉ din
  · rw [if_pos h1]
    simp [h1]
  · rw [if_neg h1]
    by_cases h2 : a ∉ jin ∧ a ∈ din
    · rw [if_pos h2]
      simp [h2.1]
    · rw [if_neg h2]
      constructor
      · intro hc
        exact Option.noConfusion hc
      · rintro ⟨_, hj, hd⟩
        exact absurd ⟨hj, hd⟩ h1

theorem tagOpFor_eq_delete {did : Nat} {jin din : List String}
    {a t : String} :
    tagOpFor did jin din a = some (Event.tagDelete did t) ↔
      (a = t ∧ a ∉ jin ∧ a ∈ din) := by
  unfold tagOpFor
  by_cases h1 : a ∈ jin ∧ a ∉ din
  · rw [if_pos h1]
    simp [h1.2]
  · rw [if_neg h1]
    by_cases h2 : a ∉ jin ∧ a ∈ din
    · rw [if_pos h2]
      simp [h2]
    · rw [if_neg h2]
      constructor
      · intro hc
        exact Option.noConfusion hc
      · rintro ⟨_, hj, hd⟩
        exact absurd ⟨hj, hd⟩ h2

theorem mem_insert_events {did : Nat} {jin din : List String} {t : String}
    {u : List String} :
    Event.tagInsert did t ∈ u.filterMap (tagOpFor did jin din) ↔
      (t ∈ u ∧ t ∈ jin ∧ t ∉ din) := by
  rw [List.mem_filterMap]
  constructor
  · rintro ⟨a, ha, hop⟩
    obtain ⟨he, hj, hd⟩ := tagOpFor_eq_insert.1 hop
    exact ⟨he ▸ ha, he ▸ hj, he ▸ hd⟩
  · rintro ⟨hu, hj, hd⟩
    exact ⟨t, hu, tagOpFor_eq_insert.2 ⟨rfl, hj, hd⟩⟩

theorem mem_delete_events {did : Nat} {jin din : List String} {t : String}
    {u : List String} :
    Event.tagDelete did t ∈ u.filterMap (tagOpFor did jin din) ↔
      (t ∈ u ∧ t ∉ jin ∧ t ∈ din) := by
  rw [List.mem_filterMap]
  constructor
  · rintro ⟨a, ha, hop⟩
    obtain ⟨he, hj, hd⟩ := tagOpFor_eq_delete.1 hop
    exact ⟨he ▸ ha, he ▸ hj, he ▸ hd⟩
  · rintro ⟨hu, hj, hd⟩
    exact ⟨t, hu, tagOpFor_eq_delete.2 ⟨rfl, hj, hd⟩⟩

theorem count_insert_events {did : Nat} {jin din : List String} {t : String}
    {u : List String} (hu : u.Nodup) (hmem : t ∈ u)
    (hc : t ∈ jin ∧ t ∉ din) :
    (u.filterMap (tagOpFor did jin din)).count (Event.tagInsert did t)
      = 1 := by
  rw [List.count_filterMap]
  have hq : List.countP
      (fun a => tagOpFor did jin din a == some (Event.tagInsert did t)) u
      = List.countP (fun a => a == t) u := by
    apply List.countP_congr
    intro x _
    rw [beq_iff_eq, beq_iff_eq, tagOpFor_eq_insert]
    constructor
    · exact fun h => h.1
    · intro h
      exact ⟨h, h ▸ hc⟩
  rw [hq, ← List.count_eq_countP]
  exact List.count_eq_one_of_mem hu hmem

theorem count_delete_events {did : Nat} {jin din : List String} {t : String}
    {u : List String} (hu : u.Nodup) (hmem : t ∈ u)
    (hc : t ∉ jin ∧ t ∈ din) :
    (u.filterMap (tagOpFor did jin din)).count (Event.tagDelete did t)
      = 1 := by
  rw [List.count_filterMap]
  have hq : List.countP
      (fun a => tagOpFor did jin din a == some (Event.tagDelete did t)) u
      = List.countP (fun a => a == t) u := by
    apply List.countP_congr
    intro x _
    rw [beq_iff_eq, beq_iff_eq, tagOpFor_eq_delete]
    constructor
    · exact fun h => h.1
    · intro h
      exact ⟨h, h ▸ hc⟩
  rw [hq, ← List.count_eq_countP]
  exact List.count_eq_one_of_mem hu hmem

theorem tagsOf_cons (r : Nat × String) (rest : TagTable) (did : Nat) :
    tagsOf (r :: rest) did
      = if r.1 = did then r.2 :: tagsOf rest did else tagsOf rest did := by
  simp only [tagsOf, List.filter_cons]
  by_cases h : r.1 = did
  · simp [h]
  · simp [h]

theorem tagsOf_append (l₁ l₂ : TagTable) (did : Nat) :
    tagsOf (l₁ ++ l₂) did = tagsOf l₁ did ++ tagsOf l₂ did := by
  simp [tagsOf, List.filter_append]

theorem count_tagsOf_insert (tt : TagTable) (did : Nat) (t s : String) :
    (tagsOf (tt ++ [(did, t)]) did).count s
      = (tagsOf tt did).count s + (if s = t then 1 else 0) := by
  rw [tagsOf_append, List.count_append]
  have h1 : tagsOf [(did, t)] did = [t] := by simp [tagsOf]
  rw [h1]
  by_cases h : s = t
  · simp [h]
  · have h2 : ¬ (t = s) := fun hc => h hc.symm
    simp [h, h2]

theorem count_tagsOf_filter_del (did : Nat) (t s : String) :
    ∀ tt : TagTable,
    (tagsOf (tt.filter (fun p => decide (¬ (p.1 = did ∧ p.2 = t)))) did).count s
      = if s = t then 0 else (tagsOf tt did).count s
  | [] => by
    simp [tagsOf]
  | r :: rest => by
    have ih := count_tagsOf_filter_del did t s rest
    rw [List.filter_cons]
    by_cases hd : r.1 = did
    · by_cases ht : r.2 = t
      · have hq : (decide (¬ (r.1 = did ∧ r.2 = t))) = false := by
          simp [hd, ht]
        rw [hq]
        simp only [Bool.false_eq_true, if_false]
        rw [ih, tagsOf_cons, if_pos hd, ht]
        by_cases hs : s = t
        · rw [if_pos hs, if_pos hs]
        · rw [if_neg hs, if_neg hs, List.count_cons]
          simp [hs]
          exact fun hc => hs hc.symm
      · have hq : (decide (¬ (r.1 = did ∧ r.2 = t))) = true := by
          simp [hd, ht]
        rw [hq]
        simp only [if_true]
        rw [tagsOf_cons, if_pos hd, tagsOf_cons, if_pos hd,
          List.count_cons, List.count_cons, ih]
        by_cases hs : s = t
        · rw [if_pos hs, if_pos hs]
          have hr2 : (r.2 == s) = false := by
            simp
            intro hc
            rw [hs] at hc
            exact ht hc
          rw [hr2]
          simp
        · rw [if_neg hs, if_neg hs]
    · have hq : (decide (¬ (r.1 = did ∧ r.2 = t))) = true := by
        simp [hd]
      rw [hq]
      simp only [if_true]
      rw [tagsOf_cons, if_neg hd, tagsOf_cons, if_neg hd, ih]

theorem tagSync_count {did : Nat} {jin din : List String} :
    ∀ (u : List String) (tt : TagTable) (s : String), u.Nodup →
    (tagsOf (tagSync did jin din u tt).2 did).count s
      = if s ∈ u then
          (if s ∈ jin then
            (if s ∈ din then (tagsOf tt did).count s
             else (tagsOf tt did).count s + 1)
           else (if s ∈ din then 0 else (tagsOf tt did).count s))
        else (tagsOf tt did).count s
  | [], tt, s, _ => by simp [tagSync]
  | t :: rest, tt, s, hnd => by
    obtain ⟨htr, hrest⟩ := List.nodup_cons.1 hnd
    have hmem : s ∈ t :: rest ↔ (s = t ∨ s ∈ rest) := List.mem_cons
    simp only [tagSync]
    by_cases h1 : t ∈ jin ∧ t ∉ din
    · rw [if_pos h1]
      dsimp only
      rw [tagSync_count rest (tt ++ [(did, t)]) s hrest, count_tagsOf_insert]
      by_cases hst : s = t
      · have hsr : s ∉ rest := by
          rw [hst]
          exact htr
        have hj : s ∈ jin := by
          rw [hst]
          exact h1.1
        have hd : s ∉ din := by
          rw [hst]
          exact h1.2
        rw [if_neg hsr, if_pos hst, if_pos (hmem.2 (Or.inl hst)), if_pos hj,
          if_neg hd]
      · rw [if_neg hst]
        by_cases hsr : s ∈ rest
        · rw [if_pos hsr, if_pos (hmem.2 (Or.inr hsr))]
          simp
        · rw [if_neg hsr, if_neg (fun hc => (hmem.1 hc).elim hst hsr)]
          simp
    · rw [if_neg h1]
      by_cases h2 : t ∉ jin ∧ t ∈ din
      · rw [if_pos h2]
        dsimp only
        rw [tagSync_count rest _ s hrest, count_tagsOf_filter_del]
        by_cases hst : s = t
        · have hsr : s ∉ rest := by
            rw [hst]
            exact htr
          have hj : s ∉ jin := by
            rw [hst]
            exact h2.1
          have hd : s ∈ din := by
            rw [hst]
            exact h2.2
          rw [if_neg hsr, if_pos hst, if_pos (hmem.2 (Or.inl hst)), if_neg hj,
            if_pos hd]
        · rw [if_neg hst]
          by_cases hsr : s ∈ rest
          · rw [if_pos hsr, if_pos (hmem.2 (Or.inr hsr))]
          · rw [if_neg hsr, if_neg (fun hc => (hmem.1 hc).elim hst hsr)]
      · rw [if_neg h2, tagSync_count rest tt s hrest]
        by_cases hst : s = t
        · have hsr : s ∉ rest := by
            rw [hst]
            exact htr
          rw [if_neg hsr, if_pos (hmem.2 (Or.inl hst))]
          by_cases hj : s ∈ jin
          · have hd : s ∈ din := by
              rw [hst] at hj ⊢
              by_cases hd2 : t ∈ din
              · exact hd2
              · exact absurd ⟨hj, hd2⟩ h1
            rw [if_pos hj, if_pos hd]
          · have hd : s ∉ din := by
              rw [hst] at hj ⊢
              intro hd2
              exact h2 ⟨hj, hd2⟩
            rw [if_neg hj, if_neg hd]
        · by_cases hsr : s ∈ rest
          · rw [if_pos hsr, if_pos (hmem.2 (Or.inr hsr))]
          · rw [if_neg hsr, if_neg (fun hc => (hmem.1 hc).elim hst hsr)]

theorem nodup_count_eq {l : List String} (h : l.Nodup) (s : String) :
    l.count s = if s ∈ l then 1 else 0 := by
  by_cases hm : s ∈ l
  · rw [if_pos hm]
    exact List.count_eq_one_of_mem h hm
  · rw [if_neg hm]
    exact List.count_eq_zero.2 hm

theorem updateTags_diff_shape {did : Nat} {jsonTags : List String}
    {tt : TagTable}
    (hne : ¬ (String.intercalate ( "," : String)
        (List.insertionSort strLe jsonTags)
      = String.intercalate ( "," : String) (dbTagsQuery tt did))) :
    updateTags did jsonTags tt
      = (((List.insertionSort strLe jsonTags
            ++ dbTagsQuery tt did).dedup).filterMap
          (tagOpFor did (List.insertionSort strLe jsonTags)
            (dbTagsQuery tt did)),
        (tagSync did (List.insertionSort strLe jsonTags) (dbTagsQuery tt did)
          ((List.insertionSort strLe jsonTags
            ++ dbTagsQuery tt did).dedup) tt).2,
        true) := by
  simp only [updateTags]
  rw [if_neg hne, tagSync_fst]

theorem updateTags_post_tags {did : Nat} {jsonTags : List String}
    {tt : TagTable} (h1 : jsonTags.Nodup) (h2 : (tagsOf tt did).Nodup)
    (hne : ¬ (String.intercalate ( "," : String)
        (List.insertionSort strLe jsonTags)
      = String.intercalate ( "," : String) (dbTagsQuery tt did))) :
    dbTagsQuery (updateTags did jsonTags tt).2.1 did
      = List.insertionSort strLe jsonTags := by
  rw [updateTags_diff_shape hne]
  have hpermS : (List.insertionSort strLe jsonTags).Perm jsonTags :=
    List.perm_insertionSort strLe jsonTags
  have hpermD : (dbTagsQuery tt did).Perm (tagsOf tt did) :=
    List.perm_insertionSort strLe (tagsOf tt did)
  have hndS : (List.insertionSort strLe jsonTags).Nodup :=
    hpermS.nodup_iff.2 h1
  have hndD : (dbTagsQuery tt did).Nodup := hpermD.nodup_iff.2 h2
  have hcount : ∀ s : String,
      (tagsOf (tagSync did (List.insertionSort strLe jsonTags)
          (dbTagsQuery tt did)
          ((List.insertionSort strLe jsonTags
            ++ dbTagsQuery tt did).dedup) tt).2 did).count s
        = if s ∈ List.insertionSort strLe jsonTags then 1 else 0 := by
    intro s
    rw [tagSync_count _ tt s (List.nodup_dedup _)]
    have hbase : (tagsOf tt did).count s
        = if s ∈ dbTagsQuery tt did then 1 else 0 := by
      rw [← hpermD.count_eq s]
      exact nodup_count_eq hndD s
    rw [hbase]
    have hdedup : s ∈ (List.insertionSort strLe jsonTags
        ++ dbTagsQuery tt did).dedup
        ↔ (s ∈ List.insertionSort strLe jsonTags
            ∨ s ∈ dbTagsQuery tt did) := by
      rw [List.mem_dedup, List.mem_append]
    by_cases hj : s ∈ List.insertionSort strLe jsonTags <;>
      by_cases hd : s ∈ dbTagsQuery tt did
    · simp [hdedup.2 (Or.inl hj), hj, hd]
    · simp [hdedup.2 (Or.inl hj), hj, hd]
    · simp [hdedup.2 (Or.inr hd), hj, hd]
    · have hnm : ¬ s ∈ (List.insertionSort strLe jsonTags
          ++ dbTagsQuery tt did).dedup := fun hc => (hdedup.1 hc).elim hj hd
      simp [hnm, hj, hd]
  have hperm2 : (tagsOf (tagSync did (List.insertionSort strLe jsonTags)
      (dbTagsQuery tt did) ((List.insertionSort strLe jsonTags
        ++ dbTagsQuery tt did).dedup) tt).2 did).Perm
      (List.insertionSort strLe jsonTags) := by
    rw [List.perm_iff_count]
    intro a
    rw [hcount a, nodup_count_eq hndS a]
  simp only [dbTagsQuery]
  exact List.eq_of_perm_of_sorted
    ((List.perm_insertionSort strLe _).trans hperm2)
    (List.sorted_insertionSort strLe _)
    (List.sorted_insertionSort strLe jsonTags)

/-- The conclusions claim C1 draws about one updateTags call on a dashboard
whose JSON tag set is `jsonTags` and whose stored tag rows for `did` carry
the terms `tagsOf tt did`: exactly one insert per tag only in JSON, exactly
one delete per tag only in the database, no operation for shared tags,
no operation outside the two sets, the changed result is true exactly when
the sorted comma-joined strings differ, and a second call against the
updated table does nothing and returns false. -/
def tagReconcileSpec (did : Nat) (jsonTags : List String)
    (tt : TagTable) : Prop :=
  (∀ t, t ∈ jsonTags → t ∉ tagsOf tt did →
    ((updateTags did jsonTags tt).1.count (Event.tagInsert did t) = 1)) ∧
  (∀ t, t ∉ jsonTags → t ∈ tagsOf tt did →
    ((updateTags did jsonTags tt).1.count (Event.tagDelete did t) = 1)) ∧
  (∀ t, t ∈ jsonTags → t ∈ tagsOf tt did →
    (Event.tagInsert did t ∉ (updateTags did jsonTags tt).1 ∧
     Event.tagDelete did t ∉ (updateTags did jsonTags tt).1)) ∧
  (∀ t, (Event.tagInsert did t ∈ (updateTags did jsonTags tt).1 →
      (t ∈ jsonTags ∧ t ∉ tagsOf tt did)) ∧
    (Event.tagDelete did t ∈ (updateTags did jsonTags tt).1 →
      (t ∈ tagsOf tt did ∧ t ∉ jsonTags))) ∧
  ((updateTags did jsonTags tt).2.2 = true ↔
    ¬ (String.intercalate ( "," : String) (List.insertionSort strLe jsonTags)
      = String.intercalate ( "," : String) (dbTagsQuery tt did))) ∧
  (updateTags did jsonTags (updateTags did jsonTags tt).2.1
    = ([], (updateTags did jsonTags tt).2.1, false))

/-- Claim C1, counterexample: on the tag sets A = { "a,b" } (JSON) and
B = { "a", "b" } (database rows), the sorted comma-joined strings coincide,
so updateTags returns false and issues no operation at all, although A
minus B contains the tag "a,b" for which the claim demands exactly one
insert (and B minus A two deletes). -/
theorem C1_counterexample :
    (updateTags 1 [( "a,b")] [(1, ( "a")), (1, ( "b"))]).1 = [] ∧
    (updateTags 1 [( "a,b")] [(1, ( "a")), (1, ( "b"))]).2.2 = false ∧
    ( "a,b") ∈ [( "a,b")] ∧
    ¬ ( "a,b") ∈ tagsOf [(1, ( "a")), (1, ( "b"))] 1 := by
  decide

/-- Claim C1, amended: restricted to tag sets whose tags are nonempty and
comma-free (so that the comma-joined comparison is faithful), one call of
updateTags issues exactly one insert per tag only in JSON, exactly one
delete per tag only in the database, touches no tag in both sets and no tag
outside them, returns true exactly when the sorted comma-joined strings
differ, and a second call with the same JSON tags against the updated table
issues no operation and returns false. -/
theorem C1_amended (did : Nat) (jsonTags : List String) (tt : TagTable)
    (h1 : jsonTags.Nodup) (h2 : (tagsOf tt did).Nodup)
    (h3 : ∀ t ∈ jsonTags, goodTag t) (h4 : ∀ t ∈ tagsOf tt did, goodTag t) :
    tagReconcileSpec did jsonTags tt := by
  have hpermS : (List.insertionSort strLe jsonTags).Perm jsonTags :=
    List.perm_insertionSort strLe jsonTags
  have hpermD : (dbTagsQuery tt did).Perm (tagsOf tt did) :=
    List.perm_insertionSort strLe (tagsOf tt did)
  unfold tagReconcileSpec
  by_cases hne : String.intercalate ( "," : String)
      (List.insertionSort strLe jsonTags)
    = String.intercalate ( "," : String) (dbTagsQuery tt did)
  case pos =>
    have hupd : updateTags did jsonTags tt = ([], tt, false) := by
      simp only [updateTags]
      rw [if_pos hne]
    have hlists : List.insertionSort strLe jsonTags = dbTagsQuery tt did :=
      intercalate_comma_inj _ _
        (fun x hx => h3 x (hpermS.mem_iff.1 hx))
        (fun x hx => h4 x (hpermD.mem_iff.1 hx)) hne
    have hAB : ∀ t : String, t ∈ jsonTags ↔ t ∈ tagsOf tt did := by
      intro t
      rw [← hpermS.mem_iff, hlists, hpermD.mem_iff]
    rw [hupd]
    refine ⟨?_, ?_, ?_, ?_, ?_, ?_⟩
    · intro t htj htd
      exact absurd ((hAB t).1 htj) htd
    · intro t htj htd
      exact absurd ((hAB t).2 htd) htj
    · intro t _ _
      exact ⟨List.not_mem_nil _, List.not_mem_nil _⟩
    · intro t
      exact ⟨fun hc => absurd hc (List.not_mem_nil _),
             fun hc => absurd hc (List.not_mem_nil _)⟩
    · constructor
      · intro hc
        exact absurd hc (by simp)
      · intro hc
        exact absurd hne hc
    · exact hupd
  case neg =>
    have hsh := updateTags_diff_shape hne
    have hmemJ : ∀ t : String,
        t ∈ jsonTags ↔ t ∈ List.insertionSort strLe jsonTags :=
      fun t => hpermS.mem_iff.symm
    have hmemD : ∀ t : String,
        t ∈ tagsOf tt did ↔ t ∈ dbTagsQuery tt did :=
      fun t => hpermD.mem_iff.symm
    have hu : ((List.insertionSort strLe jsonTags
        ++ dbTagsQuery tt did).dedup).Nodup := List.nodup_dedup _
    refine ⟨?_, ?_, ?_, ?_, ?_, ?_⟩
    · intro t htj htd
      rw [hsh]
      exact count_insert_events hu
        (List.mem_dedup.2 (List.mem_append.2 (Or.inl ((hmemJ t).1 htj))))
        ⟨(hmemJ t).1 htj, fun hc => htd ((hmemD t).2 hc)⟩
    · intro t htj htd
      rw [hsh]
      exact count_delete_events hu
        (List.mem_dedup.2 (List.mem_append.2 (Or.inr ((hmemD t).1 htd))))
        ⟨fun hc => htj ((hmemJ t).2 hc), (hmemD t).1 htd⟩
    · intro t htj htd
      rw [hsh]
      constructor
      · intro hc
        obtain ⟨_, _, hnd⟩ := mem_insert_events.1 hc
        exact hnd ((hmemD t).1 htd)
      · intro hc
        obtain ⟨_, hnj, _⟩ := mem_delete_events.1 hc
        exact hnj ((hmemJ t).1 htj)
    · intro t
      rw [hsh]
      constructor
      · intro hc
        obtain ⟨_, hj, hd⟩ := mem_insert_events.1 hc
        exact ⟨(hmemJ t).2 hj, fun hcn => hd ((hmemD t).1 hcn)⟩
      · intro hc
        obtain ⟨_, hnj, hd⟩ := mem_delete_events.1 hc
        exact ⟨(hmemD t).2 hd, fun hcn => hnj ((hmemJ t).1 hcn)⟩
    · rw [hsh]
      simp [hne]
    · have hpost := updateTags_post_tags h1 h2 hne
      have hgen : ∀ tt2 : TagTable,
          dbTagsQuery tt2 did = List.insertionSort strLe jsonTags →
          updateTags did jsonTags tt2 = ([], tt2, false) := by
        intro tt2 hq
        simp only [updateTags]
        rw [hq, if_pos rfl]
      exact hgen _ hpost

/-- Witness for the amended claim C1 at a concrete pair of tag sets with one
tag to insert, one to delete and one shared tag. -/
theorem C1_witness :
    tagReconcileSpec 1 [( "b"), ( "a")] [(1, ( "a")), (1, ( "c"))] :=
  C1_amended 1 [( "b"), ( "a")] [(1, ( "a")), (1, ( "c"))]
    (by decide) (by decide) (by decide) (by decide)

end Sqlitedb
